import Mathlib

/-!
# Region file: streaming counting sort (`sort.c`) and region statistics (`stats.c`)

Shallow embedding of the two C programs.

Platform model (LP64, two's complement, little-endian):
* `int` is 32-bit signed: a value is an `Int`, arithmetic results go through `wrap32`;
* `size_t` is 64-bit unsigned: conversion is `toSizeT`, products are reduced `% 2^64`;
* `off_t`, `ssize_t`, `long long` are 64-bit signed: results go through `wrap64`;
* a file is the list of its bytes; `pread`/`pwrite` are positioned transfers on that list.

I/O environment: a positioned read returns every byte available up to the requested count,
a positioned write transfers all its bytes; a negative offset is rejected (`EINVAL`, `-1`).
The `float` division producing the average is represented by its two exact operands.

Besides the tools themselves the file defines the offsets of the positioned reads and writes
the sort tool issues (`sort_region_io`), the histogram increments it executes
(`sort_region_accesses`), the outcome of the sort child as the stats tool
observes it (`ChildOutcome`, `stats_main`), and the statistics file name (`stats_filename`).
-/

namespace RegionFile

/-! ## Machine integers -/

/-- Value of a 32-bit signed result (`int`). -/
def wrap32 (x : Int) : Int := (x + 2147483648) % 4294967296 - 2147483648

/-- Value of a 64-bit signed result (`off_t`, `ssize_t`, `long long`). -/
def wrap64 (x : Int) : Int := (x + 9223372036854775808) % 18446744073709551616 - 9223372036854775808

/-- Conversion to `size_t` (64-bit unsigned). -/
def toSizeT (x : Int) : Int := x % 18446744073709551616

/-- Largest file offset, `2^63 - 1`. -/
def OFF_MAX : Nat := 9223372036854775807

/-! ## Files and positioned I/O -/

abbrev Byte := Fin 256

abbrev File := List Byte

/-- The `int` stored in four consecutive bytes (native order: little-endian). -/
def decodeInt (b0 b1 b2 b3 : Byte) : Int :=
  wrap32 ((b0.val : Int) + 256 * b1.val + 65536 * b2.val + 16777216 * b3.val)

/-- The four bytes of an `int` (native order: little-endian). -/
def encodeInt (v : Int) : List Byte :=
  [⟨(v % 4294967296).toNat % 256, Nat.mod_lt _ (by decide)⟩,
   ⟨(v % 4294967296).toNat / 256 % 256, Nat.mod_lt _ (by decide)⟩,
   ⟨(v % 4294967296).toNat / 65536 % 256, Nat.mod_lt _ (by decide)⟩,
   ⟨(v % 4294967296).toNat / 16777216 % 256, Nat.mod_lt _ (by decide)⟩]

/-- The `int` array held by a byte buffer, four bytes per element. -/
def decodeWords : List Byte → List Int
  | b0 :: b1 :: b2 :: b3 :: rest => decodeInt b0 b1 b2 b3 :: decodeWords rest
  | _ => []

/-- The bytes of an `int` array. -/
def encodeWords : List Int → List Byte
  | [] => []
  | v :: vs => encodeInt v ++ encodeWords vs

/-- Positioned read `pread(fd, buf, count, offset)`: `none` is the return value `-1`,
`some bs` is a transfer of `bs.length` bytes. -/
def pread (f : File) (count : Nat) (offset : Int) : Option (List Byte) :=
  if offset < 0 then none else some ((f.drop offset.toNat).take count)

/-- Positioned write `pwrite(fd, buf, count, offset)`: `none` is the return value `-1`;
otherwise the new file and the number of bytes written. A write past the end of the file
fills the gap with zero bytes. -/
def pwrite (f : File) (data : List Byte) (offset : Int) : Option (File × Int) :=
  if offset < 0 then none
  else some (f.take offset.toNat ++ List.replicate (offset.toNat - f.length) 0 ++ data
              ++ f.drop (offset.toNat + data.length), data.length)

/-- One `int` read with a 4-byte transfer at `offset`; `none` when the transfer
is not exactly `sizeof(int)` bytes. -/
def readInt (f : File) (offset : Int) : Option Int :=
  match pread f 4 offset with
  | some [b0, b1, b2, b3] => some (decodeInt b0 b1 b2 b3)
  | _ => none

/-- Header read (`sort.c` 47-48, `stats.c` 85-86): two sequential 4-byte reads from the start
of the file, giving `(num_regions, num_region_records)`. -/
def read_header (f : File) : Option (Int × Int) :=
  match readInt f 0 with
  | none => none
  | some num_regions =>
    match readInt f 4 with
    | none => none
    | some num_region_records => some (num_regions, num_region_records)

/-! ## Constants of `sort.c` -/

def BUFFER_SIZE : Int := 4096

def MIN_TEMP : Int := -1000

def MAX_TEMP : Int := 1000

def RANGE : Int := MAX_TEMP - MIN_TEMP + 1

/-- `sizeof(int) * 2 + sizeof(int) * num_region_records * (region_id - 1)` evaluated in
`size_t` and stored in an `off_t` (`sort.c` 65, `stats.c` 103). -/
def region_offset (num_region_records region_id : Int) : Int :=
  wrap64 (toSizeT (toSizeT (4 * 2)
    + toSizeT (toSizeT (4 * toSizeT num_region_records) * toSizeT (wrap32 (region_id - 1)))))

/-! ## `sort.c` -/

inductive SortError where
  | header
  | invalidRegion
  | regionRead
  | valueOutOfRange
  | write
  | diverged
  deriving DecidableEq, Repr

/-- Body of `counts[temp - MIN_TEMP]++` (`sort.c` 105), reached only with
`MIN_TEMP ≤ temp ≤ MAX_TEMP`. -/
def bump (counts : List Int) (temp : Int) : List Int :=
  counts.set (temp - MIN_TEMP).toNat (wrap32 (counts.getD (temp - MIN_TEMP).toNat 0 + 1))

/-- The `for` loop over one block (`sort.c` 96-106): range check, then increment. -/
def tallyBlock : List Int → List Int → Except SortError (List Int)
  | [], counts => .ok counts
  | temp :: rest, counts =>
    if temp < MIN_TEMP ∨ temp > MAX_TEMP then .error .valueOutOfRange
    else tallyBlock rest (bump counts temp)

/-- The `while (records_read < total_records)` loop (`sort.c` 79-110). The first argument bounds
the number of iterations; `SortError.diverged` is returned when it is used up, which
`sort_region_returns` shows never happens. Inside the loop `0 ≤ records_read < total_records`,
so the `int` difference `total_records - records_read` is exact. -/
def tallyLoop (f : File) (total_records : Int) :
    Nat → Int → Int → List Int → Except SortError (List Int)
  | 0, records_read, _, counts =>
    if records_read < total_records then .error .diverged else .ok counts
  | fuel + 1, records_read, current_offset, counts =>
    if records_read < total_records then
      let to_read :=
        if total_records - records_read < BUFFER_SIZE then total_records - records_read
        else BUFFER_SIZE
      match pread f (toSizeT (toSizeT to_read * 4)).toNat current_offset with
      | none => .error .regionRead
      | some buffer =>
        if (buffer.length : Int) ≠ toSizeT (toSizeT to_read * 4) then .error .regionRead
        else
          match tallyBlock (decodeWords buffer) counts with
          | .error e => .error e
          | .ok counts1 =>
            tallyLoop f total_records fuel (wrap32 (records_read + to_read))
              (wrap64 (current_offset + buffer.length)) counts1
    else .ok counts

/-- The inner loop `for (j = 0; j < count; j++)` (`sort.c` 119-129): `pwrite` of `temp` at the
running offset. A failure carries the file as it stands. -/
def writeRun (temp : Int) : Nat → File → Int → Except File (File × Int)
  | 0, f, current_offset => .ok (f, current_offset)
  | j + 1, f, current_offset =>
    match pwrite f (encodeInt temp) current_offset with
    | none => .error f
    | some (f1, bytes_written) =>
      if bytes_written ≠ 4 then .error f1
      else writeRun temp j f1 (wrap64 (current_offset + bytes_written))

/-- The outer loop `for (i = 0; i < RANGE; i++)` (`sort.c` 115-131) over the bucket indices. -/
def rewriteLoop (counts : List Int) : List Nat → File → Int → Except File (File × Int)
  | [], f, current_offset => .ok (f, current_offset)
  | i :: rest, f, current_offset =>
    if counts.getD i 0 > 0 then
      match writeRun (wrap32 (i + MIN_TEMP)) (counts.getD i 0).toNat f current_offset with
      | .error f1 => .error f1
      | .ok (f1, offset1) => rewriteLoop counts rest f1 offset1
    else rewriteLoop counts rest f current_offset

/-- The sort tool on an opened data file (`sort.c` 43-135): the exit status and the file as the
program leaves it. -/
def sort_region (f : File) (region_id : Int) : Except SortError Unit × File :=
  match read_header f with
  | none => (.error .header, f)
  | some (num_regions, num_region_records) =>
    if region_id < 1 ∨ region_id > num_regions then (.error .invalidRegion, f)
    else
      match tallyLoop f num_region_records num_region_records.toNat 0
          (region_offset num_region_records region_id) (List.replicate RANGE.toNat 0) with
      | .error e => (.error e, f)
      | .ok counts =>
        match rewriteLoop counts (List.range RANGE.toNat) f
            (region_offset num_region_records region_id) with
        | .error f1 => (.error .write, f1)
        | .ok (f1, _) => (.ok (), f1)

/-! ## `stats.c` -/

inductive StatsError where
  | header
  | invalidRegion
  | regionRead
  | medianRead
  | diverged
  deriving DecidableEq, Repr

/-- The record `region_stats` (`stats.c` 8-14). The field `average` holds the operands
`(sum, total_records)` of the `float` division `(float)sum / total_records`. -/
structure region_stats where
  region_id : Int
  median : Int
  average : Int × Int
  max : Int
  min : Int
  deriving DecidableEq, Repr

/-- Running `(min, max, sum)` of the streaming pass. -/
structure Acc where
  min : Int
  max : Int
  sum : Int
  deriving DecidableEq, Repr

/-- The `for` loop over one block (`stats.c` 129-138); `i` is the loop index. -/
def statsBlock (records_read : Int) : List Int → Int → Acc → Acc
  | [], _, acc => acc
  | value :: rest, i, acc =>
    if records_read = 0 ∧ i = 0 then
      statsBlock records_read rest (i + 1)
        { min := value, max := value, sum := wrap64 (acc.sum + value) }
    else
      statsBlock records_read rest (i + 1)
        { min := if value < acc.min then value else acc.min,
          max := if value > acc.max then value else acc.max,
          sum := wrap64 (acc.sum + value) }

/-- The `while (records_read < total_records)` loop (`stats.c` 113-142), with the same iteration
bound as `tallyLoop`; `compute_stats_returns` shows it is never used up. -/
def statsLoop (f : File) (total_records : Int) :
    Nat → Int → Int → Acc → Except StatsError Acc
  | 0, records_read, _, acc =>
    if records_read < total_records then .error .diverged else .ok acc
  | fuel + 1, records_read, current_offset, acc =>
    if records_read < total_records then
      let to_read :=
        if total_records - records_read < BUFFER_SIZE then total_records - records_read
        else BUFFER_SIZE
      match pread f (toSizeT (toSizeT to_read * 4)).toNat current_offset with
      | none => .error .regionRead
      | some buffer =>
        if (buffer.length : Int) ≠ toSizeT (toSizeT to_read * 4) then .error .regionRead
        else
          statsLoop f total_records fuel (wrap32 (records_read + to_read))
            (wrap64 (current_offset + buffer.length))
            (statsBlock records_read (decodeWords buffer) 0 acc)
    else .ok acc

/-- The median step (`stats.c` 146-176). -/
def median_step (f : File) (region_offset total_records : Int) : Except StatsError Int :=
  if Int.tmod total_records 2 = 0 then
    match readInt f (wrap64 (toSizeT (toSizeT region_offset
            + toSizeT (toSizeT (wrap32 (Int.tdiv total_records 2 - 1)) * 4)))) with
    | none => .error .medianRead
    | some value1 =>
      match readInt f (wrap64 (toSizeT (toSizeT region_offset
              + toSizeT (toSizeT (Int.tdiv total_records 2) * 4)))) with
      | none => .error .medianRead
      | some value2 => .ok (Int.tdiv (wrap32 (value1 + value2)) 2)
  else
    match readInt f (wrap64 (toSizeT (toSizeT region_offset
            + toSizeT (toSizeT (Int.tdiv total_records 2) * 4)))) with
    | none => .error .medianRead
    | some value => .ok value

/-- The statistics computation on the data file (`stats.c` 81-186), after the sort child
has been waited for. -/
def compute_stats (f : File) (region_id : Int) : Except StatsError region_stats :=
  match read_header f with
  | none => .error .header
  | some (num_regions, num_region_records) =>
    if region_id < 1 ∨ region_id > num_regions then .error .invalidRegion
    else
      match statsLoop f num_region_records num_region_records.toNat 0
          (region_offset num_region_records region_id) { min := 0, max := 0, sum := 0 } with
      | .error e => .error e
      | .ok acc =>
        match median_step f (region_offset num_region_records region_id) num_region_records with
        | .error e => .error e
        | .ok median =>
          .ok { region_id := region_id, median := median,
                average := (acc.sum, num_region_records), max := acc.max, min := acc.min }

/-! ## File format (spec §3, §6) -/

/-- Byte offset of the first record of region `r` in a file of `n` records per region. -/
def regionStart (n : Nat) (r : Int) : Nat := 8 + 4 * n * (r - 1).toNat

/-- The records of region `r`: the `n` integers stored from `regionStart n r`. -/
def regionRecords (f : File) (n : Nat) (r : Int) : List Int :=
  decodeWords ((f.drop (regionStart n r)).take (4 * n))

/-- A data file with the given header and body records. -/
def mkFile (num_regions num_region_records : Int) (body : List Int) : File :=
  encodeInt num_regions ++ encodeInt num_region_records ++ encodeWords body

/-! ## Predicates and functions used to state the results -/

/-- Every record is an `int`. -/
def Int32s (vs : List Int) : Prop := ∀ v ∈ vs, -2147483648 ≤ v ∧ v < 2147483648

/-- The array `counts` is the histogram of the records `vs`. -/
def Hist (counts : List Int) (vs : List Int) : Prop :=
  counts.length = 2001 ∧ ∀ i : Nat, i < 2001 → counts.getD i 0 = (vs.count ((i : Int) - 1000) : Int)

/-- The `n` records `recs` are stored at byte offset `off` of the file `f`, which is no longer
than the largest file offset. -/
structure RegionAt (f : File) (off n : Nat) (recs : List Int) : Prop where
  fit : off + 4 * n ≤ f.length
  small : f.length ≤ OFF_MAX
  recs_eq : recs = decodeWords ((f.drop off).take (4 * n))

/-- The file `f` with `data` stored from byte `o` on. -/
def overwrite (f : File) (o : Nat) (data : List Byte) : File :=
  f.take o ++ data ++ f.drop (o + data.length)

/-- The sequence of records written by the rewrite pass over the bucket indices `idxs`. -/
def rewriteOutput (counts : List Int) (idxs : List Nat) : List Int :=
  idxs.flatMap (fun i => List.replicate (counts.getD i 0).toNat (wrap32 ((i : Int) + MIN_TEMP)))

/-- A two-region sample file, three records per region. -/
def sampleFile : File := mkFile 2 3 [7, -3, 5, 1000, -1000, 0]

/-- One step of the streaming pass of `stats.c` on a record that is not the first of the
region. -/
def accStep (acc : Acc) (value : Int) : Acc :=
  { min := if value < acc.min then value else acc.min,
    max := if value > acc.max then value else acc.max,
    sum := wrap64 (acc.sum + value) }

/-- The step of the streaming pass on the first record of the region. -/
def accFirst (acc : Acc) (value : Int) : Acc :=
  { min := value, max := value, sum := wrap64 (acc.sum + value) }

/-- The streaming pass over the records `xs` that follow the first `m` records of a region. -/
def statsFold (m : Nat) (xs : List Int) (acc : Acc) : Acc :=
  if m = 0 then
    match xs with
    | [] => acc
    | v :: rest => rest.foldl accStep (accFirst acc v)
  else xs.foldl accStep acc

deriving instance DecidableEq for Except

/-- The spec's end-to-end example: one region holding `[5, -3, 0, 5, 2]`. -/
def exampleFile : File := mkFile 1 5 [5, -3, 0, 5, 2]

/-! ## Positioned I/O issued by `sort.c` -/

/-- Offsets of the `pread` calls issued by the tally loop (`sort.c` 86), in order. -/
def tallyLoopReads (f : File) (total_records : Int) : Nat → Int → Int → List Int → List Int
  | 0, _, _, _ => []
  | fuel + 1, records_read, current_offset, counts =>
    if records_read < total_records then
      let to_read :=
        if total_records - records_read < BUFFER_SIZE then total_records - records_read
        else BUFFER_SIZE
      current_offset ::
        match pread f (toSizeT (toSizeT to_read * 4)).toNat current_offset with
        | none => []
        | some buffer =>
          if (buffer.length : Int) ≠ toSizeT (toSizeT to_read * 4) then []
          else
            match tallyBlock (decodeWords buffer) counts with
            | .error _ => []
            | .ok counts1 =>
              tallyLoopReads f total_records fuel (wrap32 (records_read + to_read))
                (wrap64 (current_offset + buffer.length)) counts1
    else []

/-- Offsets of the `pwrite` calls issued by the inner rewrite loop (`sort.c` 120), in order. -/
def writeRunOffsets (temp : Int) : Nat → File → Int → List Int
  | 0, _, _ => []
  | j + 1, f, current_offset =>
    current_offset ::
      match pwrite f (encodeInt temp) current_offset with
      | none => []
      | some (f1, bytes_written) =>
        if bytes_written ≠ 4 then []
        else writeRunOffsets temp j f1 (wrap64 (current_offset + bytes_written))

/-- Offsets of the `pwrite` calls issued by the rewrite pass (`sort.c` 115-131), in order. -/
def rewriteLoopOffsets (counts : List Int) : List Nat → File → Int → List Int
  | [], _, _ => []
  | i :: rest, f, current_offset =>
    if counts.getD i 0 > 0 then
      writeRunOffsets (wrap32 (i + MIN_TEMP)) (counts.getD i 0).toNat f current_offset ++
        match writeRun (wrap32 (i + MIN_TEMP)) (counts.getD i 0).toNat f current_offset with
        | .error _ => []
        | .ok (f1, offset1) => rewriteLoopOffsets counts rest f1 offset1
    else rewriteLoopOffsets counts rest f current_offset

/-- Offsets of the positioned reads of region data and of the positioned writes issued by the
sort tool, following the control flow of `sort_region`. -/
def sort_region_io (f : File) (region_id : Int) : List Int × List Int :=
  match read_header f with
  | none => ([], [])
  | some (num_regions, num_region_records) =>
    if region_id < 1 ∨ region_id > num_regions then ([], [])
    else
      match tallyLoop f num_region_records num_region_records.toNat 0
          (region_offset num_region_records region_id) (List.replicate RANGE.toNat 0) with
      | .error _ =>
        (tallyLoopReads f num_region_records num_region_records.toNat 0
          (region_offset num_region_records region_id) (List.replicate RANGE.toNat 0), [])
      | .ok counts =>
        (tallyLoopReads f num_region_records num_region_records.toNat 0
          (region_offset num_region_records region_id) (List.replicate RANGE.toNat 0),
         rewriteLoopOffsets counts (List.range RANGE.toNat) f
          (region_offset num_region_records region_id))

/-- The offsets `o, o + 4, ...` of `k` consecutive records. -/
def offsetsFrom : Nat → Nat → List Int
  | _, 0 => []
  | o, k + 1 => (o : Int) :: offsetsFrom (o + 4) k

/-! ## The sort child of `stats.c` and the statistics file name -/

/-- How the `fork` / `execlp` / `waitpid` sequence of `stats.c` 46-63 ended, as the parent sees
it: `fork` returned `-1`; the child exited with a status (a failed `execlp` ends in `_exit(1)`);
or the child was terminated by a signal. -/
inductive ChildOutcome where
  | forkFailed
  | exited (status : Nat)
  | signaled (sig : Nat)
  deriving DecidableEq, Repr

/-- POSIX `WIFEXITED`: the child terminated by exiting. -/
def WIFEXITED : ChildOutcome → Bool
  | .exited _ => true
  | _ => false

/-- POSIX `WEXITSTATUS`: the low eight bits of the exit status. -/
def WEXITSTATUS : ChildOutcome → Nat
  | .exited status => status % 256
  | _ => 0

inductive StatsMainError where
  | fork
  | sortFailed
  | stats (e : StatsError)
  deriving DecidableEq, Repr

/-- The statistics tool from the `fork` on (`stats.c` 45-186): `f` is the data file as the
parent finds it after `waitpid`; the result is the record handed to the output step. -/
def stats_main (child : ChildOutcome) (f : File) (region_id : Int) :
    Except StatsMainError region_stats :=
  match child with
  | .forkFailed => .error .fork
  | _ =>
    if WIFEXITED child = true ∧ WEXITSTATUS child ≠ 0 then .error .sortFailed
    else
      match compute_stats f region_id with
      | .error e => .error (.stats e)
      | .ok st => .ok st

/-- The `do ... while (temp_id > 0)` loop of `stats.c` 206-209: the characters stored in
`temp_str`, least significant digit first. The first argument bounds the iterations; the file
name is built with the 16 slots of `temp_str`. -/
def digitLoop : Nat → Int → List Char
  | 0, _ => []
  | fuel + 1, temp_id =>
    Char.ofNat ((48 + Int.tmod temp_id 10) % 256).toNat ::
      (if Int.tdiv temp_id 10 > 0 then digitLoop fuel (Int.tdiv temp_id 10) else [])

/-- The file name built by `stats.c` 193-223: the characters of `"region-"`, the reversed
digits, the characters of `"-stats.bin"`. -/
def stats_filename (region_id : Int) : String :=
  String.mk ("region-".data ++ (digitLoop 16 region_id).reverse ++ "-stats.bin".data)

/-- The file name the spec asks for: `region-<region_id>-stats.bin` with `region_id` in
decimal. -/
def statsFileNameSpec (region_id : Nat) : String :=
  "region-" ++ Nat.repr region_id ++ "-stats.bin"

/-! ## Histogram accesses of `sort.c` -/

/-- One execution of `counts[temp - MIN_TEMP]++` (`sort.c` 105): the index expression
`temp - MIN_TEMP` as the `int` the program computes, the number of entries of `counts`, and the
counter found at that index before the increment. -/
structure HistAccess where
  index : Int
  size : Nat
  value : Int
  deriving DecidableEq, Repr

/-- The increments executed by the `for` loop over one block (`sort.c` 96-106), in order:
one for every record that reaches line 105, none after the loop has stopped at line 98. -/
def tallyBlockAccesses : List Int → List Int → List HistAccess
  | [], _ => []
  | temp :: rest, counts =>
    if temp < MIN_TEMP ∨ temp > MAX_TEMP then []
    else
      { index := wrap32 (temp - MIN_TEMP), size := counts.length,
        value := counts.getD (temp - MIN_TEMP).toNat 0 } ::
        tallyBlockAccesses rest (bump counts temp)

/-- The increments executed by the tally loop (`sort.c` 79-110), block after block, following
the control flow of `tallyLoop`. -/
def tallyLoopAccesses (f : File) (total_records : Int) :
    Nat → Int → Int → List Int → List HistAccess
  | 0, _, _, _ => []
  | fuel + 1, records_read, current_offset, counts =>
    if records_read < total_records then
      let to_read :=
        if total_records - records_read < BUFFER_SIZE then total_records - records_read
        else BUFFER_SIZE
      match pread f (toSizeT (toSizeT to_read * 4)).toNat current_offset with
      | none => []
      | some buffer =>
        if (buffer.length : Int) ≠ toSizeT (toSizeT to_read * 4) then []
        else
          tallyBlockAccesses (decodeWords buffer) counts ++
            match tallyBlock (decodeWords buffer) counts with
            | .error _ => []
            | .ok counts1 =>
              tallyLoopAccesses f total_records fuel (wrap32 (records_read + to_read))
                (wrap64 (current_offset + buffer.length)) counts1
    else []

/-- The increments of the histogram executed by the sort tool, following the control flow of
`sort_region`. -/
def sort_region_accesses (f : File) (region_id : Int) : List HistAccess :=
  match read_header f with
  | none => []
  | some (num_regions, num_region_records) =>
    if region_id < 1 ∨ region_id > num_regions then []
    else
      tallyLoopAccesses f num_region_records num_region_records.toNat 0
        (region_offset num_region_records region_id) (List.replicate RANGE.toNat 0)

/-- Every counter of the 2001-entry histogram lies in `[0, k]`. -/
def CountsBounded (counts : List Int) (k : Int) : Prop :=
  counts.length = 2001 ∧ ∀ i : Nat, 0 ≤ counts.getD i 0 ∧ counts.getD i 0 ≤ k

/-- An increment stays inside the histogram and inside the `int` range: the index lies in
`[0, 2000]`, the array has 2001 entries, and the counter is at least `0` and, once incremented,
at most `total`. -/
def SafeAccess (a : HistAccess) (total : Int) : Prop :=
  0 ≤ a.index ∧ a.index ≤ 2000 ∧ a.size = 2001 ∧ a.index.toNat < a.size
  ∧ 0 ≤ a.value ∧ a.value + 1 ≤ total

/-! ## Machine integer facts -/

theorem wrap32_of_range {x : Int} (h1 : -2147483648 ≤ x) (h2 : x < 2147483648) : wrap32 x = x := by
  unfold wrap32; omega

theorem wrap64_of_range {x : Int} (h1 : -9223372036854775808 ≤ x)
    (h2 : x < 9223372036854775808) : wrap64 x = x := by
  unfold wrap64; omega

theorem toSizeT_of_range {x : Int} (h1 : 0 ≤ x) (h2 : x < 18446744073709551616) :
    toSizeT x = x := by
  unfold toSizeT; omega

theorem wrap32_range (x : Int) : -2147483648 ≤ wrap32 x ∧ wrap32 x < 2147483648 := by
  unfold wrap32; omega

/-! ## Encoding and decoding of records -/

theorem encodeInt_length (v : Int) : (encodeInt v).length = 4 := rfl

theorem decodeWords_cons4 (b0 b1 b2 b3 : Byte) (rest : List Byte) :
    decodeWords (b0 :: b1 :: b2 :: b3 :: rest) = decodeInt b0 b1 b2 b3 :: decodeWords rest := rfl

theorem decodeInt_encodeInt (v : Int) (h1 : -2147483648 ≤ v) (h2 : v < 2147483648)
    (rest : List Byte) : decodeWords (encodeInt v ++ rest) = v :: decodeWords rest := by
  have h : ∀ a b c d : Byte, decodeInt a b c d = v →
      decodeWords ([a, b, c, d] ++ rest) = v :: decodeWords rest := by
    intro a b c d e
    rw [← e]; rfl
  apply h
  simp only [decodeInt, wrap32]
  omega

theorem encodeInt_decodeInt (b0 b1 b2 b3 : Byte) :
    encodeInt (decodeInt b0 b1 b2 b3) = [b0, b1, b2, b3] := by
  have h0 := b0.isLt
  have h1 := b1.isLt
  have h2 := b2.isLt
  have h3 := b3.isLt
  simp only [encodeInt, decodeInt, wrap32, List.cons.injEq, and_true, Fin.ext_iff]
  refine ⟨?_, ?_, ?_, ?_⟩ <;> omega

theorem encodeWords_length (vs : List Int) : (encodeWords vs).length = 4 * vs.length := by
  induction vs with
  | nil => rfl
  | cons v vs ih =>
    rw [encodeWords, List.length_append, encodeInt_length, ih, List.length_cons]; omega

theorem encodeWords_append (xs ys : List Int) :
    encodeWords (xs ++ ys) = encodeWords xs ++ encodeWords ys := by
  induction xs with
  | nil => rfl
  | cons v vs ih =>
    rw [List.cons_append, encodeWords, encodeWords, ih, List.append_assoc]

theorem decodeWords_encodeWords (vs : List Int) (h : Int32s vs) (rest : List Byte)
    (hr : rest.length < 4) : decodeWords (encodeWords vs ++ rest) = vs := by
  induction vs with
  | nil =>
    match rest, hr with
    | [], _ => rfl
    | [_], _ => rfl
    | [_, _], _ => rfl
    | [_, _, _], _ => rfl
    | _ :: _ :: _ :: _ :: _, h => simp at h; omega
  | cons v vs ih =>
    have hv := h v (List.mem_cons_self _ _)
    rw [encodeWords, List.append_assoc, decodeInt_encodeInt v hv.1 hv.2,
      ih (fun w hw => h w (List.mem_cons_of_mem _ hw))]

theorem decode_encode (vs : List Int) (h : Int32s vs) : decodeWords (encodeWords vs) = vs := by
  have := decodeWords_encodeWords vs h [] (by simp)
  rwa [List.append_nil] at this

theorem encodeWords_decodeWords : ∀ (n : Nat) (bs : List Byte), bs.length = 4 * n →
    encodeWords (decodeWords bs) = bs ∧ (decodeWords bs).length = n ∧ Int32s (decodeWords bs) := by
  intro n
  induction n with
  | zero =>
    intro bs h
    have : bs = [] := List.length_eq_zero.mp (by omega)
    subst this
    exact ⟨rfl, rfl, fun v hv => by cases hv⟩
  | succ n ih =>
    intro bs h
    match bs, h with
    | b0 :: b1 :: b2 :: b3 :: rest, h =>
      have hl : rest.length = 4 * n := by simp only [List.length_cons] at h; omega
      obtain ⟨e1, e2, e3⟩ := ih rest hl
      refine ⟨?_, ?_, ?_⟩
      · rw [decodeWords_cons4, encodeWords, encodeInt_decodeInt, e1]; rfl
      · rw [decodeWords_cons4, List.length_cons, e2]
      · intro v hv
        rw [decodeWords_cons4, List.mem_cons] at hv
        rcases hv with hv | hv
        · rw [hv]; exact wrap32_range _
        · exact e3 v hv
    | [], h => simp at h
    | [_], h => simp at h; omega
    | [_, _], h => simp at h; omega
    | [_, _, _], h => simp at h; omega

theorem encodeWords_take (vs : List Int) (k : Nat) :
    (encodeWords vs).take (4 * k) = encodeWords (vs.take k) := by
  induction vs generalizing k with
  | nil => simp [encodeWords]
  | cons v vs ih =>
    cases k with
    | zero => simp [encodeWords]
    | succ k =>
      rw [List.take_succ_cons, encodeWords, encodeWords, ← ih k,
        List.take_append_eq_append_take, List.take_of_length_le (by rw [encodeInt_length]; omega),
        encodeInt_length]
      congr 2

theorem encodeWords_drop (vs : List Int) (k : Nat) :
    (encodeWords vs).drop (4 * k) = encodeWords (vs.drop k) := by
  induction vs generalizing k with
  | nil => simp [encodeWords]
  | cons v vs ih =>
    cases k with
    | zero => simp [encodeWords]
    | succ k =>
      rw [List.drop_succ_cons, encodeWords, ← ih k,
        List.drop_append_eq_append_drop, List.drop_of_length_le (by rw [encodeInt_length]; omega),
        encodeInt_length, List.nil_append]
      congr 1

/-! ## The tally pass on a list of records -/

theorem RANGE_toNat : RANGE.toNat = 2001 := by decide

theorem hist_init : Hist (List.replicate RANGE.toNat 0) [] := by
  rw [RANGE_toNat]
  refine ⟨List.length_replicate _ _, ?_⟩
  intro i hi
  rw [List.getD_eq_getElem?_getD, List.getElem?_replicate, if_pos hi]
  rfl

theorem getD_bump (counts : List Int) (v : Int) (hl : counts.length = 2001)
    (h1 : -1000 ≤ v) (h2 : v ≤ 1000) (i : Nat) :
    (bump counts v).getD i 0
      = if (i : Int) - 1000 = v then wrap32 (counts.getD i 0 + 1) else counts.getD i 0 := by
  unfold bump MIN_TEMP
  rw [List.getD_eq_getElem?_getD, List.getElem?_set]
  by_cases h : (i : Int) - 1000 = v
  · have e : (v - -1000).toNat = i := by omega
    rw [if_pos e, if_pos h, if_pos (by omega), e]
    rfl
  · have e : ¬ (v - -1000).toNat = i := by omega
    rw [if_neg e, if_neg h, List.getD_eq_getElem?_getD]

theorem hist_bump (counts done : List Int) (v : Int) (hh : Hist counts done)
    (h1 : -1000 ≤ v) (h2 : v ≤ 1000) (hb : done.length + 1 < 2147483648) :
    Hist (bump counts v) (done ++ [v]) := by
  refine ⟨by unfold bump; rw [List.length_set]; exact hh.1, ?_⟩
  intro i hi
  rw [getD_bump counts v hh.1 h1 h2 i, hh.2 i hi, List.count_append, List.count_cons]
  have hc := List.count_le_length ((i : Int) - 1000) done
  by_cases h : (i : Int) - 1000 = v
  · rw [if_pos h, wrap32_of_range (by omega) (by omega)]
    simp [h]
  · rw [if_neg h]
    have : ¬ (v == (i : Int) - 1000) = true := by simpa using fun e => h e.symm
    simp [this]

theorem tallyBlock_hist (vs : List Int) : ∀ (done counts : List Int),
    (∀ v ∈ vs, -1000 ≤ v ∧ v ≤ 1000) → Hist counts done →
    done.length + vs.length < 2147483648 →
    ∃ c, tallyBlock vs counts = .ok c ∧ Hist c (done ++ vs) := by
  induction vs with
  | nil =>
    intro done counts _ hh _
    exact ⟨counts, rfl, by rwa [List.append_nil]⟩
  | cons v vs ih =>
    intro done counts hr hh hb
    have hv := hr v (List.mem_cons_self _ _)
    rw [List.length_cons] at hb
    have hstep := hist_bump counts done v hh hv.1 hv.2 (by omega)
    obtain ⟨c, e1, e2⟩ := ih (done ++ [v]) (bump counts v)
      (fun w hw => hr w (List.mem_cons_of_mem _ hw)) hstep
      (by rw [List.length_append, List.length_singleton]; omega)
    refine ⟨c, ?_, by rwa [List.append_assoc] at e2⟩
    rw [tallyBlock, if_neg (by unfold MIN_TEMP MAX_TEMP; omega)]
    exact e1

theorem tallyBlock_append (xs ys : List Int) : ∀ counts : List Int,
    tallyBlock (xs ++ ys) counts
      = match tallyBlock xs counts with
        | .error e => .error e
        | .ok c => tallyBlock ys c := by
  induction xs with
  | nil => intro counts; rfl
  | cons v vs ih =>
    intro counts
    rw [List.cons_append, tallyBlock, tallyBlock]
    split
    · rfl
    · exact ih _

theorem tallyBlock_reject (vs : List Int) : ∀ counts : List Int,
    (∃ v ∈ vs, v < -1000 ∨ 1000 < v) → tallyBlock vs counts = .error .valueOutOfRange := by
  induction vs with
  | nil => intro _ ⟨v, hv, _⟩; cases hv
  | cons w ws ih =>
    intro counts ⟨v, hv, hbad⟩
    rw [tallyBlock]
    split
    · rfl
    · rename_i hw
      unfold MIN_TEMP MAX_TEMP at hw
      rcases List.mem_cons.mp hv with e | hmem
      · subst e; omega
      · exact ih _ ⟨v, hmem, hbad⟩

/-! ## Regions inside a file -/

theorem RegionAt.bytes {f : File} {off n : Nat} {recs : List Int} (h : RegionAt f off n recs) :
    (f.drop off).take (4 * n) = encodeWords recs ∧ recs.length = n ∧ Int32s recs := by
  have hl : ((f.drop off).take (4 * n)).length = 4 * n := by
    rw [List.length_take, List.length_drop]; have := h.fit; omega
  obtain ⟨e1, e2, e3⟩ := encodeWords_decodeWords n _ hl
  rw [← h.recs_eq] at e1 e2 e3
  exact ⟨e1.symm, e2, e3⟩

theorem RegionAt.split {f : File} {off n : Nat} {recs : List Int} (h : RegionAt f off n recs) :
    f = f.take off ++ encodeWords recs ++ f.drop (off + 4 * n) := by
  rw [← h.bytes.1, List.append_assoc]
  conv_lhs => rw [← List.take_append_drop off f]
  congr 1
  conv_lhs => rw [← List.take_append_drop (4 * n) (f.drop off)]
  rw [List.drop_drop]

theorem RegionAt.block {f : File} {off n : Nat} {recs : List Int} (h : RegionAt f off n recs)
    (m t : Nat) (hmt : m + t ≤ n) :
    (f.drop (off + 4 * m)).take (4 * t) = encodeWords ((recs.drop m).take t) := by
  rw [← encodeWords_take, ← encodeWords_drop, ← h.bytes.1, List.drop_take, List.take_take,
    List.drop_drop]
  congr 1
  omega

/-! ## The tally loop reads the region block by block -/

theorem block_size (n m : Nat) (hm : m < n) :
    (if (n : Int) - m < BUFFER_SIZE then (n : Int) - m else BUFFER_SIZE)
      = ((min 4096 (n - m) : Nat) : Int)
    ∧ 1 ≤ min 4096 (n - m) ∧ m + min 4096 (n - m) ≤ n := by
  unfold BUFFER_SIZE
  refine ⟨?_, by omega, by omega⟩
  split <;> omega

theorem toSizeT_mul4 (t : Nat) (ht : t ≤ 4096) :
    toSizeT (toSizeT (t : Int) * 4) = ((4 * t : Nat) : Int) := by
  unfold toSizeT; omega

theorem offset_step (off m t n L : Nat) (hmt : m + t ≤ n) (ht : t ≤ 4096)
    (hfit : off + 4 * n ≤ L) (hs : L ≤ OFF_MAX) :
    wrap64 (((off + 4 * m : Nat) : Int) + toSizeT (toSizeT (t : Int) * 4))
      = ((off + 4 * (m + t) : Nat) : Int) := by
  unfold OFF_MAX at hs
  rw [toSizeT_mul4 t ht, wrap64_of_range (by omega) (by omega)]
  omega

theorem pread_block {f : File} {off n : Nat} {recs : List Int} (h : RegionAt f off n recs)
    (m t : Nat) (hmt : m + t ≤ n) (ht : t ≤ 4096) :
    pread f (toSizeT (toSizeT (t : Int) * 4)).toNat ((off + 4 * m : Nat) : Int)
      = some (encodeWords ((recs.drop m).take t))
    ∧ (((encodeWords ((recs.drop m).take t)).length : Nat) : Int) = toSizeT (toSizeT (t : Int) * 4)
    ∧ decodeWords (encodeWords ((recs.drop m).take t)) = (recs.drop m).take t
    ∧ ((recs.drop m).take t).length = t := by
  have hsz := toSizeT_mul4 t ht
  have hlen : ((recs.drop m).take t).length = t := by
    rw [List.length_take, List.length_drop, h.bytes.2.1]; omega
  refine ⟨?_, ?_, ?_, hlen⟩
  · rw [hsz, pread, if_neg (by omega), Int.toNat_ofNat, Int.toNat_ofNat, h.block m t hmt]
  · rw [hsz, encodeWords_length, hlen]
  · apply decode_encode
    intro v hv
    exact h.bytes.2.2 v (List.mem_of_mem_drop (List.mem_of_mem_take hv))

theorem tallyLoop_eq {f : File} {off n : Nat} {recs : List Int} (h : RegionAt f off n recs)
    (hn : n < 2147483648) : ∀ (fuel m : Nat) (counts : List Int), m ≤ n → n - m ≤ fuel →
    tallyLoop f n fuel m ((off + 4 * m : Nat) : Int) counts = tallyBlock (recs.drop m) counts := by
  intro fuel
  induction fuel with
  | zero =>
    intro m counts hm hf
    have e : m = n := by omega
    subst e
    rw [tallyLoop, if_neg (by omega), List.drop_of_length_le (by rw [h.bytes.2.1]), tallyBlock]
  | succ fuel ih =>
    intro m counts hm hf
    by_cases hlt : m < n
    · obtain ⟨e1, e2, e3⟩ := block_size n m hlt
      obtain ⟨p1, p2, p3, p4⟩ := pread_block h m (min 4096 (n - m)) e3 (by omega)
      have hsplit : recs.drop m
          = (recs.drop m).take (min 4096 (n - m)) ++ recs.drop (m + min 4096 (n - m)) := by
        rw [← List.drop_drop, List.take_append_drop]
      rw [tallyLoop, if_pos (by omega)]
      simp only [e1, p1, p2, p3, ne_eq, not_true_eq_false, if_false]
      conv_rhs => rw [hsplit, tallyBlock_append]
      cases hb : tallyBlock ((recs.drop m).take (min 4096 (n - m))) counts with
      | error e => rfl
      | ok c1 =>
        simp only []
        have w1 : wrap32 ((m : Int) + ((min 4096 (n - m) : Nat) : Int))
            = ((m + min 4096 (n - m) : Nat) : Int) := by
          rw [wrap32_of_range (by omega) (by omega)]; push_cast; rfl
        have w2 := offset_step off m (min 4096 (n - m)) n f.length e3 (by omega) h.fit h.small
        rw [w1, w2]
        exact ih _ c1 e3 (by omega)
    · have e : m = n := by omega
      subst e
      rw [tallyLoop, if_neg (by omega), List.drop_of_length_le (by rw [h.bytes.2.1]), tallyBlock]

/-! ## The rewrite pass -/

theorem overwrite_length (f : File) (o : Nat) (data : List Byte) (h : o + data.length ≤ f.length) :
    (overwrite f o data).length = f.length := by
  unfold overwrite
  simp only [List.length_append, List.length_take, List.length_drop]
  omega

theorem overwrite_nil (f : File) (o : Nat) : overwrite f o [] = f := by
  unfold overwrite
  rw [List.append_nil, List.length_nil, Nat.add_zero, List.take_append_drop]

theorem overwrite_overwrite (f : File) (o : Nat) (d1 d2 : List Byte)
    (h : o + d1.length ≤ f.length) :
    overwrite (overwrite f o d1) (o + d1.length) d2 = overwrite f o (d1 ++ d2) := by
  have hA : (f.take o ++ d1).length = o + d1.length := by
    rw [List.length_append, List.length_take]; omega
  unfold overwrite
  rw [List.take_left' hA, ← List.drop_drop, List.drop_left' hA, List.drop_drop,
    List.length_append, Nat.add_assoc]
  simp only [List.append_assoc]

theorem pwrite_inside (f : File) (data : List Byte) (o : Nat) (h : o + data.length ≤ f.length) :
    pwrite f data (o : Int) = some (overwrite f o data, (data.length : Int)) := by
  rw [pwrite, if_neg (by omega), Int.toNat_ofNat,
    show o - f.length = 0 by omega, List.replicate_zero, List.append_nil]
  rfl

theorem writeRun_ok (temp : Int) : ∀ (j : Nat) (f : File) (o : Nat),
    o + 4 * j ≤ f.length → f.length ≤ OFF_MAX →
    writeRun temp j f (o : Int)
      = .ok (overwrite f o (encodeWords (List.replicate j temp)), ((o + 4 * j : Nat) : Int)) := by
  intro j
  induction j with
  | zero =>
    intro f o _ _
    rw [writeRun, List.replicate_zero, encodeWords, overwrite_nil]
    rfl
  | succ j ih =>
    intro f o h hs
    have hw : pwrite f (encodeInt temp) (o : Int) = some (overwrite f o (encodeInt temp), 4) :=
      pwrite_inside f (encodeInt temp) o (by rw [encodeInt_length]; omega)
    have hl := overwrite_length f o (encodeInt temp) (by rw [encodeInt_length]; omega)
    have hoff : wrap64 ((o : Int) + 4) = ((o + 4 : Nat) : Int) := by
      unfold OFF_MAX at hs
      rw [wrap64_of_range (by omega) (by omega)]; rfl
    have hcomp := overwrite_overwrite f o (encodeInt temp) (encodeWords (List.replicate j temp))
      (by rw [encodeInt_length]; omega)
    rw [encodeInt_length] at hcomp
    rw [writeRun, hw]
    show (if (4 : Int) ≠ 4 then Except.error (overwrite f o (encodeInt temp))
      else writeRun temp j (overwrite f o (encodeInt temp)) (wrap64 ((o : Int) + 4))) = _
    rw [if_neg (by decide), hoff, ih _ (o + 4) (by rw [hl]; omega) (by rw [hl]; exact hs),
      hcomp, List.replicate_succ, encodeWords, show o + 4 + 4 * j = o + 4 * (j + 1) by omega]

theorem rewriteLoop_ok (counts : List Int) : ∀ (idxs : List Nat) (f : File) (o : Nat),
    o + 4 * (rewriteOutput counts idxs).length ≤ f.length → f.length ≤ OFF_MAX →
    rewriteLoop counts idxs f (o : Int)
      = .ok (overwrite f o (encodeWords (rewriteOutput counts idxs)),
              ((o + 4 * (rewriteOutput counts idxs).length : Nat) : Int)) := by
  intro idxs
  induction idxs with
  | nil =>
    intro f o _ _
    rw [rewriteLoop]
    simp only [rewriteOutput, List.flatMap_nil, encodeWords, overwrite_nil, List.length_nil,
      Nat.mul_zero, Nat.add_zero]
  | cons i rest ih =>
    intro f o h hs
    have hout : rewriteOutput counts (i :: rest)
        = List.replicate (counts.getD i 0).toNat (wrap32 ((i : Int) + MIN_TEMP))
          ++ rewriteOutput counts rest := by
      simp only [rewriteOutput, List.flatMap_cons]
    rw [hout, List.length_append, List.length_replicate] at h
    rw [rewriteLoop]
    by_cases hc : counts.getD i 0 > 0
    · rw [if_pos hc, writeRun_ok _ _ f o (by omega) hs]
      simp only []
      have hl := overwrite_length f o
        (encodeWords (List.replicate (counts.getD i 0).toNat (wrap32 ((i : Int) + MIN_TEMP))))
        (by rw [encodeWords_length, List.length_replicate]; omega)
      rw [ih _ _ (by rw [hl]; omega) (by rw [hl]; exact hs)]
      have := overwrite_overwrite f o
        (encodeWords (List.replicate (counts.getD i 0).toNat (wrap32 ((i : Int) + MIN_TEMP))))
        (encodeWords (rewriteOutput counts rest))
        (by rw [encodeWords_length, List.length_replicate]; omega)
      rw [encodeWords_length, List.length_replicate] at this
      rw [this, hout, encodeWords_append, List.length_append, List.length_replicate,
        show o + 4 * (counts.getD i 0).toNat + 4 * (rewriteOutput counts rest).length
          = o + 4 * ((counts.getD i 0).toNat + (rewriteOutput counts rest).length) by omega]
    · rw [if_neg hc]
      have hz : (counts.getD i 0).toNat = 0 := by omega
      rw [hz, Nat.zero_add] at h
      rw [ih f o h hs, hout, hz, List.replicate_zero, List.nil_append]

/-! ## The rewritten sequence is the ascending arrangement of the region -/

theorem bucket_value (i : Nat) (hi : i < 2001) : wrap32 ((i : Int) + MIN_TEMP) = (i : Int) - 1000 := by
  unfold MIN_TEMP
  rw [wrap32_of_range (by omega) (by omega)]
  omega

theorem rewriteOutput_append (counts : List Int) (xs ys : List Nat) :
    rewriteOutput counts (xs ++ ys) = rewriteOutput counts xs ++ rewriteOutput counts ys := by
  unfold rewriteOutput
  rw [List.flatMap_append]

theorem rewriteOutput_count_upto (counts recs : List Int) (hh : Hist counts recs) (v : Int) :
    ∀ N : Nat, N ≤ 2001 →
    (rewriteOutput counts (List.range N)).count v
      = if -1000 ≤ v ∧ v < (N : Int) - 1000 then recs.count v else 0 := by
  intro N
  induction N with
  | zero =>
    intro _
    rw [if_neg (by omega)]
    rfl
  | succ N ih =>
    intro hN
    have hone : rewriteOutput counts [N]
        = List.replicate (recs.count ((N : Int) - 1000)) ((N : Int) - 1000) := by
      unfold rewriteOutput
      rw [List.flatMap_cons, List.flatMap_nil, List.append_nil, bucket_value N (by omega),
        hh.2 N (by omega), Int.toNat_ofNat]
    rw [List.range_succ, rewriteOutput_append, List.count_append, ih (by omega), hone,
      List.count_replicate]
    by_cases hv : (N : Int) - 1000 = v
    · subst hv
      rw [if_neg (by omega), if_pos (by simp), if_pos (by omega), Nat.zero_add]
    · have hb : ¬ (((N : Int) - 1000 == v) = true) := by simpa using hv
      rw [if_neg hb, Nat.add_zero]
      by_cases hlt : -1000 ≤ v ∧ v < (N : Int) - 1000
      · rw [if_pos hlt, if_pos (by omega)]
      · rw [if_neg hlt, if_neg (by omega)]

theorem rewriteOutput_count (counts recs : List Int) (hh : Hist counts recs)
    (hr : ∀ v ∈ recs, -1000 ≤ v ∧ v ≤ 1000) (v : Int) :
    (rewriteOutput counts (List.range 2001)).count v = recs.count v := by
  rw [rewriteOutput_count_upto counts recs hh v 2001 le_rfl]
  by_cases hv : -1000 ≤ v ∧ v < ((2001 : Nat) : Int) - 1000
  · rw [if_pos hv]
  · rw [if_neg hv]
    symm
    apply List.count_eq_zero_of_not_mem
    intro hmem
    have := hr v hmem
    omega

theorem rewriteOutput_perm (counts recs : List Int) (hh : Hist counts recs)
    (hr : ∀ v ∈ recs, -1000 ≤ v ∧ v ≤ 1000) :
    (rewriteOutput counts (List.range 2001)).Perm recs :=
  List.perm_iff_count.mpr (rewriteOutput_count counts recs hh hr)

theorem rewriteOutput_sorted (counts : List Int) :
    (rewriteOutput counts (List.range 2001)).Sorted (fun a b => a ≤ b) := by
  unfold rewriteOutput List.Sorted
  rw [List.pairwise_flatMap]
  constructor
  · intro i _
    rw [List.pairwise_iff_forall_sublist]
    intro a b hab
    have ha := List.eq_of_mem_replicate (hab.subset (List.mem_cons_self _ _))
    have hb := List.eq_of_mem_replicate
      (hab.subset (List.mem_cons_of_mem _ (List.mem_cons_self _ _)))
    rw [ha, hb]
  · refine List.Pairwise.imp_of_mem ?_ (List.pairwise_lt_range 2001)
    intro i j hi hj hij x hx y hy
    rw [List.eq_of_mem_replicate hx, List.eq_of_mem_replicate hy,
      bucket_value i (List.mem_range.mp hi), bucket_value j (List.mem_range.mp hj)]
    omega

theorem rewriteOutput_range (counts : List Int) :
    ∀ v ∈ rewriteOutput counts (List.range 2001), -1000 ≤ v ∧ v ≤ 1000 := by
  intro v hv
  unfold rewriteOutput at hv
  rw [List.mem_flatMap] at hv
  obtain ⟨i, hi, hx⟩ := hv
  rw [List.eq_of_mem_replicate hx, bucket_value i (List.mem_range.mp hi)]
  have := List.mem_range.mp hi
  omega

/-! ## Header and region offset -/

theorem readInt_range (f : File) (o v : Int) (h : readInt f o = some v) :
    -2147483648 ≤ v ∧ v < 2147483648 := by
  unfold readInt at h
  split at h
  · injection h with h
    rw [← h]
    exact wrap32_range _
  · cases h

theorem read_header_range (f : File) (a b : Int) (h : read_header f = some (a, b)) :
    (-2147483648 ≤ a ∧ a < 2147483648) ∧ (-2147483648 ≤ b ∧ b < 2147483648) := by
  unfold read_header at h
  split at h
  · cases h
  · rename_i x hx
    split at h
    · cases h
    · rename_i y hy
      injection h with h
      injection h with h1 h2
      subst h1
      subst h2
      exact ⟨readInt_range f 0 _ hx, readInt_range f 4 _ hy⟩

theorem region_offset_eq (rpr r : Int) (h0 : 0 ≤ rpr) (h1 : rpr < 2147483648)
    (hr1 : 1 ≤ r) (hr2 : r < 2147483648)
    (hfit : 8 + 4 * rpr * (r - 1) < 9223372036854775808) :
    region_offset rpr r = 8 + 4 * rpr * (r - 1) := by
  have e1 : toSizeT (4 * 2) = 8 := by decide
  have e2 : toSizeT (4 * toSizeT rpr) = 4 * rpr := by unfold toSizeT; omega
  have e3 : toSizeT (wrap32 (r - 1)) = r - 1 := by unfold toSizeT wrap32; omega
  have hp : 0 ≤ 4 * rpr * (r - 1) := Int.mul_nonneg (by omega) (by omega)
  unfold region_offset
  rw [e1, e2, e3]
  generalize 4 * rpr * (r - 1) = p at hfit hp
  unfold wrap64 toSizeT
  omega

theorem regionStart_cast (n : Nat) (r : Int) (hr : 1 ≤ r) :
    ((regionStart n r : Nat) : Int) = 8 + 4 * (n : Int) * (r - 1) := by
  unfold regionStart
  push_cast
  rw [Int.toNat_of_nonneg (by omega)]

theorem region_offset_start (n : Nat) (r : Int) (hn : n < 2147483648)
    (hr1 : 1 ≤ r) (hr2 : r < 2147483648) (hfit : regionStart n r ≤ OFF_MAX) :
    region_offset n r = ((regionStart n r : Nat) : Int) := by
  have hc := regionStart_cast n r hr1
  unfold OFF_MAX at hfit
  rw [hc]
  exact region_offset_eq n r (by omega) (by omega) hr1 hr2 (by omega)

/-! ## The sort tool on a well-formed region -/

theorem regionRecords_overwrite (f : File) (n : Nat) (r : Int) (out : List Int)
    (hl : out.length = n) (hi : Int32s out) (hfit : regionStart n r + 4 * n ≤ f.length) :
    regionRecords (overwrite f (regionStart n r) (encodeWords out)) n r = out := by
  have h1 : (f.take (regionStart n r)).length = regionStart n r := by
    rw [List.length_take]; omega
  have h2 : (encodeWords out).length = 4 * n := by rw [encodeWords_length, hl]
  unfold regionRecords overwrite
  rw [List.append_assoc, List.drop_left' h1, List.take_left' h2]
  exact decode_encode out hi

theorem region_of_file (f : File) (n : Nat) (r : Int)
    (hfit : regionStart n r + 4 * n ≤ f.length) (hs : f.length ≤ OFF_MAX) :
    RegionAt f (regionStart n r) n (regionRecords f n r) :=
  ⟨hfit, hs, rfl⟩

theorem tally_of_region (f : File) (rc r : Int) (n : Nat)
    (hdr : read_header f = some (rc, (n : Int))) (hr1 : 1 ≤ r) (hr2 : r ≤ rc)
    (hfit : regionStart n r + 4 * n ≤ f.length) (hs : f.length ≤ OFF_MAX) :
    region_offset n r = ((regionStart n r : Nat) : Int)
    ∧ tallyLoop f n (n : Int).toNat 0 (region_offset n r) (List.replicate RANGE.toNat 0)
      = tallyBlock (regionRecords f n r) (List.replicate RANGE.toNat 0) := by
  obtain ⟨hrc, hn⟩ := read_header_range f rc n hdr
  have hoff := region_offset_start n r (by omega) hr1 (by omega) (by omega)
  refine ⟨hoff, ?_⟩
  have := tallyLoop_eq (region_of_file f n r hfit hs) (by omega) n 0
    (List.replicate RANGE.toNat 0) (Nat.zero_le _) (by omega)
  rw [hoff, Int.toNat_ofNat]
  simpa using this

theorem sort_region_ok (f : File) (rc r : Int) (n : Nat)
    (hdr : read_header f = some (rc, (n : Int))) (hr1 : 1 ≤ r) (hr2 : r ≤ rc)
    (hfit : regionStart n r + 4 * n ≤ f.length) (hs : f.length ≤ OFF_MAX)
    (hrange : ∀ v ∈ regionRecords f n r, -1000 ≤ v ∧ v ≤ 1000) :
    ∃ out : List Int,
      sort_region f r = (.ok (), overwrite f (regionStart n r) (encodeWords out))
      ∧ out.Sorted (fun a b => a ≤ b) ∧ out.Perm (regionRecords f n r)
      ∧ (∀ v ∈ out, -1000 ≤ v ∧ v ≤ 1000) := by
  obtain ⟨hoff, htally⟩ := tally_of_region f rc r n hdr hr1 hr2 hfit hs
  obtain ⟨hrc, hn⟩ := read_header_range f rc n hdr
  have hreg := region_of_file f n r hfit hs
  obtain ⟨counts, hc1, hc2⟩ := tallyBlock_hist (regionRecords f n r) [] _ hrange hist_init
    (by rw [hreg.bytes.2.1]; simp only [List.length_nil]; omega)
  rw [List.nil_append] at hc2
  have hperm := rewriteOutput_perm counts _ hc2 hrange
  have hlen : (rewriteOutput counts (List.range 2001)).length = n := by
    rw [hperm.length_eq, hreg.bytes.2.1]
  refine ⟨rewriteOutput counts (List.range 2001), ?_, rewriteOutput_sorted counts, hperm,
    rewriteOutput_range counts⟩
  have hrw := rewriteLoop_ok counts (List.range 2001) f (regionStart n r)
    (by rw [hlen]; exact hfit) hs
  unfold sort_region
  rw [hdr]
  simp only []
  rw [if_neg (by omega), htally, hc1]
  simp only []
  rw [RANGE_toNat, hoff, hrw]

/-! ## Further facts about the sort tool -/

theorem take_drop_overwrite (f : File) (o : Nat) (data : List Byte) (a b : Nat)
    (hab : a + b ≤ o) (ho : o ≤ f.length) :
    ((overwrite f o data).drop a).take b = (f.drop a).take b := by
  have h1 : a + b ≤ (f.take o).length := by rw [List.length_take]; omega
  unfold overwrite
  rw [List.take_drop, List.take_drop, List.append_assoc, List.take_append_of_le_length h1,
    List.take_take, Nat.min_eq_left hab]

theorem readInt_overwrite (f : File) (o : Nat) (data : List Byte) (a : Nat)
    (hab : a + 4 ≤ o) (ho : o ≤ f.length) :
    readInt (overwrite f o data) (a : Int) = readInt f (a : Int) := by
  unfold readInt pread
  rw [if_neg (by omega), if_neg (by omega), Int.toNat_ofNat, take_drop_overwrite f o data a 4 hab ho]

theorem read_header_overwrite (f : File) (o : Nat) (data : List Byte)
    (h8 : 8 ≤ o) (ho : o ≤ f.length) :
    read_header (overwrite f o data) = read_header f := by
  have h0 := readInt_overwrite f o data 0 (by omega) ho
  have h4 := readInt_overwrite f o data 4 (by omega) ho
  unfold read_header
  rw [show ((0 : Nat) : Int) = 0 from rfl] at h0
  rw [show ((4 : Nat) : Int) = 4 from rfl] at h4
  rw [h0, h4]

theorem regionStart_ge (n : Nat) (r : Int) : 8 ≤ regionStart n r := by
  unfold regionStart; omega

theorem tallyBlock_error (vs : List Int) : ∀ (counts : List Int) (e : SortError),
    tallyBlock vs counts = .error e → e = .valueOutOfRange := by
  induction vs with
  | nil => intro counts e h; cases h
  | cons v vs ih =>
    intro counts e h
    rw [tallyBlock] at h
    split at h
    · injection h with h; exact h.symm
    · exact ih _ e h

/-- Started with `total_records - records_read` iterations allowed, the tally loop returns,
and the only errors it reports are the read error and the range error. -/
theorem tallyLoop_error (f : File) (total : Int) : ∀ (fuel : Nat) (rr off : Int)
    (counts : List Int) (e : SortError),
    -2147483648 ≤ rr → total < 2147483648 → total - rr ≤ fuel →
    tallyLoop f total fuel rr off counts = .error e →
    e = .valueOutOfRange ∨ e = .regionRead := by
  intro fuel
  induction fuel with
  | zero =>
    intro rr off counts e _ _ hf h
    rw [tallyLoop, if_neg (by omega)] at h
    cases h
  | succ fuel ih =>
    intro rr off counts e h1 h2 hf h
    by_cases hlt : rr < total
    · have ht : ∃ t : Int, (if total - rr < BUFFER_SIZE then total - rr else BUFFER_SIZE) = t
          ∧ 1 ≤ t ∧ t ≤ total - rr := by
        refine ⟨_, rfl, ?_, ?_⟩ <;> unfold BUFFER_SIZE <;> split <;> omega
      obtain ⟨t, et, t1, t2⟩ := ht
      rw [tallyLoop, if_pos hlt] at h
      dsimp only at h
      rw [et] at h
      split at h
      · injection h with h; exact Or.inr h.symm
      · split at h
        · injection h with h; exact Or.inr h.symm
        · split at h
          · rename_i e1 he
            injection h with h
            subst h
            exact Or.inl (tallyBlock_error _ _ _ he)
          · rw [wrap32_of_range (by omega) (by omega)] at h
            exact ih _ _ _ e (by omega) h2 (by omega) h
    · rw [tallyLoop, if_neg hlt] at h
      cases h

/-! ## The streaming pass of `stats.c` -/

theorem statsBlock_later (rr : Int) (xs : List Int) : ∀ (i : Int) (acc : Acc),
    rr ≠ 0 ∨ 0 < i → statsBlock rr xs i acc = xs.foldl accStep acc := by
  induction xs with
  | nil => intro i acc _; rfl
  | cons v rest ih =>
    intro i acc h
    rw [statsBlock, if_neg (by omega), List.foldl_cons]
    exact ih (i + 1) _ (by omega)

theorem statsBlock_eq_fold (m : Nat) (xs : List Int) (acc : Acc) :
    statsBlock (m : Int) xs 0 acc = statsFold m xs acc := by
  unfold statsFold
  by_cases hm : m = 0
  · subst hm
    rw [if_pos rfl]
    cases xs with
    | nil => rfl
    | cons v rest =>
      rw [statsBlock, if_pos ⟨rfl, rfl⟩]
      exact statsBlock_later _ rest _ _ (Or.inr (by omega))
  · rw [if_neg hm]
    exact statsBlock_later _ xs 0 acc (Or.inl (by omega))

theorem statsFold_append (m : Nat) (xs ys : List Int) (hx : xs ≠ []) (acc : Acc) :
    statsFold m (xs ++ ys) acc = ys.foldl accStep (statsFold m xs acc) := by
  unfold statsFold
  by_cases hm : m = 0
  · rw [if_pos hm, if_pos hm]
    cases xs with
    | nil => exact absurd rfl hx
    | cons v rest => exact List.foldl_append _ _ _ _
  · rw [if_neg hm, if_neg hm]
    exact List.foldl_append _ _ _ _

theorem statsFold_later (m : Nat) (hm : m ≠ 0) (xs : List Int) (acc : Acc) :
    statsFold m xs acc = xs.foldl accStep acc := by
  unfold statsFold
  rw [if_neg hm]

theorem statsFold_nil (m : Nat) (acc : Acc) : statsFold m [] acc = acc := by
  unfold statsFold
  split <;> rfl

theorem statsLoop_eq {f : File} {off n : Nat} {recs : List Int} (h : RegionAt f off n recs)
    (hn : n < 2147483648) : ∀ (fuel m : Nat) (acc : Acc), m ≤ n → n - m ≤ fuel →
    statsLoop f n fuel m ((off + 4 * m : Nat) : Int) acc = .ok (statsFold m (recs.drop m) acc) := by
  intro fuel
  induction fuel with
  | zero =>
    intro m acc hm hf
    have e : m = n := by omega
    subst e
    rw [statsLoop, if_neg (by omega), List.drop_of_length_le (by rw [h.bytes.2.1]), statsFold_nil]
  | succ fuel ih =>
    intro m acc hm hf
    by_cases hlt : m < n
    · obtain ⟨e1, e2, e3⟩ := block_size n m hlt
      obtain ⟨p1, p2, p3, p4⟩ := pread_block h m (min 4096 (n - m)) e3 (by omega)
      have hsplit : recs.drop m
          = (recs.drop m).take (min 4096 (n - m)) ++ recs.drop (m + min 4096 (n - m)) := by
        rw [← List.drop_drop, List.take_append_drop]
      have hne : (recs.drop m).take (min 4096 (n - m)) ≠ [] := by
        intro hnil
        rw [hnil, List.length_nil] at p4
        omega
      have w1 : wrap32 ((m : Int) + ((min 4096 (n - m) : Nat) : Int))
          = ((m + min 4096 (n - m) : Nat) : Int) := by
        rw [wrap32_of_range (by omega) (by omega)]; push_cast; rfl
      have w2 := offset_step off m (min 4096 (n - m)) n f.length e3 (by omega) h.fit h.small
      rw [statsLoop, if_pos (by omega)]
      simp only [e1, p1, p2, p3, ne_eq, not_true_eq_false, if_false]
      rw [w1, w2, ih _ _ e3 (by omega), statsBlock_eq_fold, statsFold_later _ (by omega)]
      conv_rhs => rw [hsplit, statsFold_append m _ _ hne]
    · have e : m = n := by omega
      subst e
      rw [statsLoop, if_neg (by omega), List.drop_of_length_le (by rw [h.bytes.2.1]),
        statsFold_nil]

theorem fold_sum (xs : List Int) : ∀ (acc : Acc) (k : Nat), Int32s xs →
    -((k : Int) * 2147483648) ≤ acc.sum → acc.sum ≤ (k : Int) * 2147483648 →
    k + xs.length ≤ 2147483648 →
    (xs.foldl accStep acc).sum = acc.sum + xs.sum := by
  induction xs with
  | nil => intro acc k _ _ _ _; simp
  | cons v rest ih =>
    intro acc k hi h1 h2 hk
    have hv := hi v (List.mem_cons_self _ _)
    rw [List.length_cons] at hk
    have hw : (accStep acc v).sum = acc.sum + v := by
      show wrap64 (acc.sum + v) = acc.sum + v
      exact wrap64_of_range (by omega) (by omega)
    rw [List.foldl_cons, ih (accStep acc v) (k + 1)
      (fun w hw => hi w (List.mem_cons_of_mem _ hw)) (by rw [hw]; push_cast; omega)
      (by rw [hw]; push_cast; omega) (by omega), hw, List.sum_cons]
    omega

theorem fold_min (xs : List Int) : ∀ acc : Acc,
    (xs.foldl accStep acc).min ≤ acc.min ∧ (∀ v ∈ xs, (xs.foldl accStep acc).min ≤ v)
    ∧ ((xs.foldl accStep acc).min = acc.min ∨ (xs.foldl accStep acc).min ∈ xs) := by
  induction xs with
  | nil => intro acc; exact ⟨le_rfl, fun v hv => absurd hv (List.not_mem_nil v), Or.inl rfl⟩
  | cons v rest ih =>
    intro acc
    obtain ⟨h1, h2, h3⟩ := ih (accStep acc v)
    have hm : (accStep acc v).min = if v < acc.min then v else acc.min := rfl
    rw [List.foldl_cons]
    refine ⟨?_, ?_, ?_⟩
    · rw [hm] at h1; split at h1 <;> omega
    · intro w hw
      rcases List.mem_cons.mp hw with e | hw
      · subst e; rw [hm] at h1; split at h1 <;> omega
      · exact h2 w hw
    · rcases h3 with e | hmem
      · rw [hm] at e
        split at e
        · exact Or.inr (by rw [e]; exact List.mem_cons_self _ _)
        · exact Or.inl e
      · exact Or.inr (List.mem_cons_of_mem _ hmem)

theorem fold_max (xs : List Int) : ∀ acc : Acc,
    acc.max ≤ (xs.foldl accStep acc).max ∧ (∀ v ∈ xs, v ≤ (xs.foldl accStep acc).max)
    ∧ ((xs.foldl accStep acc).max = acc.max ∨ (xs.foldl accStep acc).max ∈ xs) := by
  induction xs with
  | nil => intro acc; exact ⟨le_rfl, fun v hv => absurd hv (List.not_mem_nil v), Or.inl rfl⟩
  | cons v rest ih =>
    intro acc
    obtain ⟨h1, h2, h3⟩ := ih (accStep acc v)
    have hm : (accStep acc v).max = if v > acc.max then v else acc.max := rfl
    rw [List.foldl_cons]
    refine ⟨?_, ?_, ?_⟩
    · rw [hm] at h1; split at h1 <;> omega
    · intro w hw
      rcases List.mem_cons.mp hw with e | hw
      · subst e; rw [hm] at h1; split at h1 <;> omega
      · exact h2 w hw
    · rcases h3 with e | hmem
      · rw [hm] at e
        split at e
        · exact Or.inr (by rw [e]; exact List.mem_cons_self _ _)
        · exact Or.inl e
      · exact Or.inr (List.mem_cons_of_mem _ hmem)

/-- Result of the streaming pass over a whole non-empty region. -/
theorem statsFold_region (recs : List Int) (hne : recs ≠ []) (hi : Int32s recs)
    (hl : recs.length < 2147483648) :
    ((statsFold 0 recs { min := 0, max := 0, sum := 0 }).min ∈ recs
      ∧ ∀ v ∈ recs, (statsFold 0 recs { min := 0, max := 0, sum := 0 }).min ≤ v)
    ∧ ((statsFold 0 recs { min := 0, max := 0, sum := 0 }).max ∈ recs
      ∧ ∀ v ∈ recs, v ≤ (statsFold 0 recs { min := 0, max := 0, sum := 0 }).max)
    ∧ (statsFold 0 recs { min := 0, max := 0, sum := 0 }).sum = recs.sum := by
  cases recs with
  | nil => exact absurd rfl hne
  | cons v rest =>
    have hv := hi v (List.mem_cons_self _ _)
    have hf : statsFold 0 (v :: rest) { min := 0, max := 0, sum := 0 }
        = rest.foldl accStep { min := v, max := v, sum := v } := by
      unfold statsFold accFirst
      rw [if_pos rfl]
      dsimp only
      rw [Int.zero_add, wrap64_of_range (by omega) (by omega)]
    rw [hf]
    obtain ⟨a1, a2, a3⟩ := fold_min rest { min := v, max := v, sum := v }
    obtain ⟨b1, b2, b3⟩ := fold_max rest { min := v, max := v, sum := v }
    rw [List.length_cons] at hl
    have hsum := fold_sum rest { min := v, max := v, sum := v } 1
      (fun w hw => hi w (List.mem_cons_of_mem _ hw)) (by simp only []; omega)
      (by simp only []; omega) (by omega)
    dsimp only at a1 a3 b1 b3 hsum
    refine ⟨⟨?_, ?_⟩, ⟨?_, ?_⟩, ?_⟩
    · rcases a3 with e | hmem
      · rw [e]; exact List.mem_cons_self _ _
      · exact List.mem_cons_of_mem _ hmem
    · intro w hw
      rcases List.mem_cons.mp hw with e | hw
      · rw [e]; exact a1
      · exact a2 w hw
    · rcases b3 with e | hmem
      · rw [e]; exact List.mem_cons_self _ _
      · exact List.mem_cons_of_mem _ hmem
    · intro w hw
      rcases List.mem_cons.mp hw with e | hw
      · rw [e]; exact b1
      · exact b2 w hw
    · rw [hsum, List.sum_cons]

/-! ## The median step and the statistics of a region -/

theorem readInt_of_bytes (f : File) (o v : Int) (h : pread f 4 o = some (encodeInt v))
    (h1 : -2147483648 ≤ v) (h2 : v < 2147483648) : readInt f o = some v := by
  have hd := decodeInt_encodeInt v h1 h2 []
  rw [List.append_nil] at hd
  unfold readInt
  rw [h]
  exact congrArg some (List.cons.inj hd).1

theorem readInt_region {f : File} {off n : Nat} {recs : List Int} (h : RegionAt f off n recs)
    (k : Nat) (hk : k < n) : readInt f ((off + 4 * k : Nat) : Int) = recs[k]? := by
  have hlen := h.bytes.2.1
  have hklen : k < recs.length := by omega
  have hb := h.block k 1 (by omega)
  rw [List.take_one_drop_eq_of_lt_length hklen] at hb
  have hv := h.bytes.2.2 recs[k] (List.getElem_mem hklen)
  rw [List.getElem?_eq_getElem hklen]
  apply readInt_of_bytes _ _ _ _ hv.1 hv.2
  rw [pread, if_neg (by omega), Int.toNat_ofNat]
  rw [show 4 = 4 * 1 from rfl, hb]
  rfl

theorem median_offset (off k n L : Nat) (x : Int) (hx : x = (k : Int)) (hk : k < n)
    (hn : n < 2147483648) (hfit : off + 4 * n ≤ L) (hs : L ≤ OFF_MAX) :
    wrap64 (toSizeT (toSizeT (off : Int) + toSizeT (toSizeT x * 4)))
      = ((off + 4 * k : Nat) : Int) := by
  subst hx
  have e1 : toSizeT (toSizeT (k : Int) * 4) = 4 * (k : Int) := by unfold toSizeT; omega
  unfold OFF_MAX at hs
  have e2 : toSizeT (off : Int) = off := by unfold toSizeT; omega
  rw [e1, e2]
  have e3 : toSizeT ((off : Int) + 4 * k) = (off : Int) + 4 * k := by unfold toSizeT; omega
  rw [e3, wrap64_of_range (by omega) (by omega)]
  push_cast
  rfl

theorem median_step_odd {f : File} {off n : Nat} {recs : List Int} (h : RegionAt f off n recs)
    (hn : n < 2147483648) (hodd : n % 2 = 1) :
    ∃ v, recs[n / 2]? = some v ∧ median_step f (off : Int) (n : Int) = .ok v := by
  have hlen := h.bytes.2.1
  have hk : n / 2 < recs.length := by omega
  have hdiv : Int.tdiv (n : Int) 2 = ((n / 2 : Nat) : Int) := by
    rw [Int.tdiv_eq_ediv (by omega) (by omega)]; omega
  have hmod : Int.tmod (n : Int) 2 ≠ 0 := by
    rw [Int.tmod_eq_emod (by omega) (by omega)]; omega
  have ho := median_offset off (n / 2) n f.length _ hdiv (by omega) hn h.fit h.small
  refine ⟨recs[n / 2], List.getElem?_eq_getElem hk, ?_⟩
  unfold median_step
  rw [if_neg hmod, ho, readInt_region h (n / 2) (by omega), List.getElem?_eq_getElem hk]

theorem median_step_even {f : File} {off n : Nat} {recs : List Int} (h : RegionAt f off n recs)
    (hn : n < 2147483648) (hpos : 1 ≤ n) (heven : n % 2 = 0) :
    ∃ a b, recs[n / 2 - 1]? = some a ∧ recs[n / 2]? = some b
      ∧ median_step f (off : Int) (n : Int) = .ok (Int.tdiv (wrap32 (a + b)) 2) := by
  have hlen := h.bytes.2.1
  have hk : n / 2 < recs.length := by omega
  have hk1 : n / 2 - 1 < recs.length := by omega
  have hdiv : Int.tdiv (n : Int) 2 = ((n / 2 : Nat) : Int) := by
    rw [Int.tdiv_eq_ediv (by omega) (by omega)]; omega
  have hdiv1 : wrap32 (Int.tdiv (n : Int) 2 - 1) = ((n / 2 - 1 : Nat) : Int) := by
    rw [hdiv, wrap32_of_range (by omega) (by omega)]; omega
  have hmod : Int.tmod (n : Int) 2 = 0 := by
    rw [Int.tmod_eq_emod (by omega) (by omega)]; omega
  have ho := median_offset off (n / 2) n f.length _ hdiv (by omega) hn h.fit h.small
  have ho1 := median_offset off (n / 2 - 1) n f.length _ hdiv1 (by omega) hn h.fit h.small
  refine ⟨recs[n / 2 - 1], recs[n / 2], List.getElem?_eq_getElem hk1,
    List.getElem?_eq_getElem hk, ?_⟩
  unfold median_step
  rw [if_pos hmod, ho, ho1, readInt_region h (n / 2) (by omega),
    readInt_region h (n / 2 - 1) (by omega), List.getElem?_eq_getElem hk,
    List.getElem?_eq_getElem hk1]

/-- On a non-empty region lying inside the file, `compute_stats` returns a record: its minimum
and maximum are the least and greatest record, its sum is the exact sum, and its median is
the middle record (odd count) or the halved 32-bit sum of the two middle records (even count). -/
theorem compute_stats_ok (f : File) (rc r : Int) (n : Nat)
    (hdr : read_header f = some (rc, (n : Int))) (hr1 : 1 ≤ r) (hr2 : r ≤ rc) (hpos : 1 ≤ n)
    (hfit : regionStart n r + 4 * n ≤ f.length) (hs : f.length ≤ OFF_MAX) :
    ∃ st : region_stats, compute_stats f r = .ok st
      ∧ st.region_id = r
      ∧ (st.min ∈ regionRecords f n r ∧ ∀ v ∈ regionRecords f n r, st.min ≤ v)
      ∧ (st.max ∈ regionRecords f n r ∧ ∀ v ∈ regionRecords f n r, v ≤ st.max)
      ∧ st.average = ((regionRecords f n r).sum, (n : Int))
      ∧ (n % 2 = 1 → (regionRecords f n r)[n / 2]? = some st.median)
      ∧ (n % 2 = 0 → ∃ a b, (regionRecords f n r)[n / 2 - 1]? = some a
            ∧ (regionRecords f n r)[n / 2]? = some b
            ∧ st.median = Int.tdiv (wrap32 (a + b)) 2) := by
  obtain ⟨hrc, hn⟩ := read_header_range f rc n hdr
  have hoff := region_offset_start n r (by omega) hr1 (by omega) (by omega)
  have hreg := region_of_file f n r hfit hs
  have hloop := statsLoop_eq hreg (by omega) n 0 { min := 0, max := 0, sum := 0 }
    (Nat.zero_le _) (by omega)
  rw [Nat.mul_zero, Nat.add_zero, List.drop_zero] at hloop
  have hne : regionRecords f n r ≠ [] := by
    intro e
    have := hreg.bytes.2.1
    rw [e, List.length_nil] at this
    omega
  obtain ⟨smin, smax, ssum⟩ := statsFold_region (regionRecords f n r) hne hreg.bytes.2.2
    (by rw [hreg.bytes.2.1]; omega)
  have hunf : ∀ med, median_step f (region_offset n r) n = .ok med →
      compute_stats f r = .ok ⟨r, med,
        ((statsFold 0 (regionRecords f n r) ⟨0, 0, 0⟩).sum, n),
        (statsFold 0 (regionRecords f n r) ⟨0, 0, 0⟩).max,
        (statsFold 0 (regionRecords f n r) ⟨0, 0, 0⟩).min⟩ := by
    intro med hmed
    unfold compute_stats
    rw [hdr]
    dsimp only
    rw [if_neg (by omega), Int.toNat_ofNat, hmed, hoff]
    rw [show ((0 : Nat) : Int) = 0 from rfl] at hloop
    rw [hloop]
  by_cases hpar : n % 2 = 1
  · obtain ⟨v, hv, hmed⟩ := median_step_odd hreg (by omega) hpar
    rw [← hoff] at hmed
    refine ⟨_, hunf v hmed, rfl, smin, smax, ?_, fun _ => hv, fun h0 => by omega⟩
    show (_, _) = (_, _)
    rw [ssum]
  · obtain ⟨a, b, ha, hb, hmed⟩ := median_step_even hreg (by omega) hpos (by omega)
    rw [← hoff] at hmed
    refine ⟨_, hunf _ hmed, rfl, smin, smax, ?_, fun h1 => absurd h1 hpar,
      fun _ => ⟨a, b, ha, hb, rfl⟩⟩
    show (_, _) = (_, _)
    rw [ssum]

/-! ## Errors of the statistics tool, ordered lists -/

theorem statsLoop_error (f : File) (total : Int) : ∀ (fuel : Nat) (rr off : Int)
    (acc : Acc) (e : StatsError),
    -2147483648 ≤ rr → total < 2147483648 → total - rr ≤ fuel →
    statsLoop f total fuel rr off acc = .error e → e = .regionRead := by
  intro fuel
  induction fuel with
  | zero =>
    intro rr off acc e _ _ hf h
    rw [statsLoop, if_neg (by omega)] at h
    cases h
  | succ fuel ih =>
    intro rr off acc e h1 h2 hf h
    by_cases hlt : rr < total
    · have ht : ∃ t : Int, (if total - rr < BUFFER_SIZE then total - rr else BUFFER_SIZE) = t
          ∧ 1 ≤ t ∧ t ≤ total - rr := by
        refine ⟨_, rfl, ?_, ?_⟩ <;> unfold BUFFER_SIZE <;> split <;> omega
      obtain ⟨t, et, t1, t2⟩ := ht
      rw [statsLoop, if_pos hlt] at h
      dsimp only at h
      rw [et] at h
      split at h
      · injection h with h; exact h.symm
      · split at h
        · injection h with h; exact h.symm
        · rw [wrap32_of_range (by omega) (by omega)] at h
          exact ih _ _ _ e (by omega) h2 (by omega) h
    · rw [statsLoop, if_neg hlt] at h
      cases h

theorem median_step_error (f : File) (off total : Int) (e : StatsError)
    (h : median_step f off total = .error e) : e = .medianRead := by
  unfold median_step at h
  split at h
  · split at h
    · injection h with h; exact h.symm
    · split at h
      · injection h with h; exact h.symm
      · cases h
  · split at h
    · injection h with h; exact h.symm
    · cases h

theorem sorted_getElem_le (s : List Int) (hs : s.Sorted (fun a b => a ≤ b)) (i j : Nat)
    (hij : i ≤ j) (hj : j < s.length) : s[i] ≤ s[j] := by
  rcases Nat.lt_or_eq_of_le hij with h | h
  · exact (List.pairwise_iff_getElem.mp hs) i j (by omega) hj h
  · subst h; exact le_rfl

theorem sorted_first (s : List Int) (hs : s.Sorted (fun a b => a ≤ b)) (m : Int)
    (hm : m ∈ s) (hle : ∀ v ∈ s, m ≤ v) : s[0]? = some m := by
  obtain ⟨i, hi, e⟩ := List.getElem_of_mem hm
  have h0 : 0 < s.length := by omega
  rw [List.getElem?_eq_getElem h0]
  have h1 := sorted_getElem_le s hs 0 i (Nat.zero_le _) hi
  have h2 := hle s[0] (List.getElem_mem h0)
  rw [e] at h1
  exact congrArg some (le_antisymm h1 h2)

theorem sorted_last (s : List Int) (hs : s.Sorted (fun a b => a ≤ b)) (m : Int)
    (hm : m ∈ s) (hle : ∀ v ∈ s, v ≤ m) : s[s.length - 1]? = some m := by
  obtain ⟨i, hi, e⟩ := List.getElem_of_mem hm
  have h0 : s.length - 1 < s.length := by omega
  rw [List.getElem?_eq_getElem h0]
  have h1 := sorted_getElem_le s hs i (s.length - 1) (by omega) h0
  have h2 := hle s[s.length - 1] (List.getElem_mem h0)
  rw [e] at h1
  exact congrArg some (le_antisymm h2 h1)

/-- The sort tool writes the ascending arrangement of the region over the region. -/
theorem sort_region_eq (f : File) (rc r : Int) (n : Nat)
    (hdr : read_header f = some (rc, (n : Int))) (hr1 : 1 ≤ r) (hr2 : r ≤ rc)
    (hfit : regionStart n r + 4 * n ≤ f.length) (hs : f.length ≤ OFF_MAX)
    (hrange : ∀ v ∈ regionRecords f n r, -1000 ≤ v ∧ v ≤ 1000)
    (s : List Int) (hsorted : s.Sorted (fun a b => a ≤ b)) (hperm : s.Perm (regionRecords f n r)) :
    sort_region f r = (.ok (), overwrite f (regionStart n r) (encodeWords s)) := by
  obtain ⟨out, e, hsorted1, hperm1, _⟩ := sort_region_ok f rc r n hdr hr1 hr2 hfit hs hrange
  have : out = s := List.eq_of_perm_of_sorted (hperm1.trans hperm.symm) hsorted1 hsorted
  rw [e, this]

/-- The file left by a successful sort: same header, same length, region `r` holding `s`. -/
theorem sorted_file (f : File) (rc r : Int) (n : Nat)
    (hdr : read_header f = some (rc, (n : Int)))
    (hfit : regionStart n r + 4 * n ≤ f.length) (hs : f.length ≤ OFF_MAX)
    (s : List Int) (hperm : s.Perm (regionRecords f n r)) :
    read_header (overwrite f (regionStart n r) (encodeWords s)) = some (rc, (n : Int))
    ∧ (overwrite f (regionStart n r) (encodeWords s)).length = f.length
    ∧ regionRecords (overwrite f (regionStart n r) (encodeWords s)) n r = s := by
  have hreg := (region_of_file f n r hfit hs).bytes
  have hlen : s.length = n := by rw [hperm.length_eq, hreg.2.1]
  have hi : Int32s s := fun v hv => hreg.2.2 v (hperm.subset hv)
  refine ⟨?_, ?_, regionRecords_overwrite f n r s hlen hi hfit⟩
  · rw [read_header_overwrite f _ _ (regionStart_ge n r) (by omega), hdr]
  · exact overwrite_length f _ _ (by rw [encodeWords_length, hlen]; exact hfit)

/-- The iteration bound `num_region_records` given to the tally loop is never used up: the sort
tool returns a genuine outcome on every file and region id. -/
theorem sort_region_returns (f : File) (r : Int) : (sort_region f r).1 ≠ .error .diverged := by
  unfold sort_region
  split
  · intro h; cases h
  · rename_i rc rpr hdr
    have hrpr := (read_header_range f rc rpr hdr).2
    split
    · intro h; cases h
    · split
      · rename_i e he
        have := tallyLoop_error f rpr _ 0 _ _ e (by omega) hrpr.2 (by omega) he
        intro h
        injection h with h
        subst h
        rcases this with h1 | h1 <;> cases h1
      · split
        · intro h; cases h
        · intro h; cases h

/-- The iteration bound given to the streaming loop is never used up: the statistics
computation returns a genuine outcome on every file and region id. -/
theorem compute_stats_returns (f : File) (r : Int) : compute_stats f r ≠ .error .diverged := by
  unfold compute_stats
  split
  · intro h; cases h
  · rename_i rc rpr hdr
    have hrpr := (read_header_range f rc rpr hdr).2
    split
    · intro h; cases h
    · split
      · rename_i e he
        have := statsLoop_error f rpr _ 0 _ _ e (by omega) hrpr.2 (by omega) he
        intro h
        injection h with h
        subst h
        cases this
      · split
        · rename_i e he
          have := median_step_error f _ _ e he
          intro h
          injection h with h
          subst h
          cases this
        · intro h; cases h

/-! ## Properties of the sort tool -/

/-- C1: for a file with a readable header `(rc, n)`, a region id `r` with `1 ≤ r ≤ rc`, and
region `r` holding `n` records that all lie in `[-1000, 1000]`, `sort_region` succeeds and the
records of region `r` are afterwards in non-decreasing order, for every record count `n`
(whatever its relation to the 4096-record block size). -/
theorem sort_region_ascending (f : File) (rc r : Int) (n : Nat)
    (hdr : read_header f = some (rc, (n : Int))) (hr1 : 1 ≤ r) (hr2 : r ≤ rc)
    (hfit : regionStart n r + 4 * n ≤ f.length) (hs : f.length ≤ OFF_MAX)
    (hrange : ∀ v ∈ regionRecords f n r, -1000 ≤ v ∧ v ≤ 1000) :
    (sort_region f r).1 = .ok ()
    ∧ (regionRecords (sort_region f r).2 n r).Sorted (fun a b => a ≤ b) := by
  obtain ⟨out, e, hsorted, hperm, _⟩ := sort_region_ok f rc r n hdr hr1 hr2 hfit hs hrange
  have hreg := (region_of_file f n r hfit hs).bytes
  have hlen : out.length = n := by rw [hperm.length_eq, hreg.2.1]
  have hi : Int32s out := fun v hv => hreg.2.2 v (hperm.subset hv)
  rw [e]
  refine ⟨rfl, ?_⟩
  show (regionRecords (overwrite f (regionStart n r) (encodeWords out)) n r).Sorted _
  rw [regionRecords_overwrite f n r out hlen hi hfit]
  exact hsorted

/-- Witness for C1 on region 2 of the sample file. -/
theorem sort_region_ascending_witness :
    read_header sampleFile = some (2, ((3 : Nat) : Int))
    ∧ (∀ v ∈ regionRecords sampleFile 3 2, -1000 ≤ v ∧ v ≤ 1000)
    ∧ (sort_region sampleFile 2).1 = .ok ()
    ∧ (regionRecords (sort_region sampleFile 2).2 3 2).Sorted (fun a b => a ≤ b) :=
  ⟨by decide, by decide,
   sort_region_ascending sampleFile 2 2 3 (by decide) (by decide) (by decide) (by decide)
     (by decide) (by decide)⟩

/-- C2: for a region whose records all lie in `[-1000, 1000]`, a successful `sort_region`
preserves the multiset of records: every value occurs in the region after sorting as often as
before, that is, the region after is a permutation of the region before. -/
theorem sort_region_permutation (f : File) (rc r : Int) (n : Nat)
    (hdr : read_header f = some (rc, (n : Int))) (hr1 : 1 ≤ r) (hr2 : r ≤ rc)
    (hfit : regionStart n r + 4 * n ≤ f.length) (hs : f.length ≤ OFF_MAX)
    (hrange : ∀ v ∈ regionRecords f n r, -1000 ≤ v ∧ v ≤ 1000) :
    (sort_region f r).1 = .ok ()
    ∧ (∀ v : Int, (regionRecords (sort_region f r).2 n r).count v
        = (regionRecords f n r).count v)
    ∧ (regionRecords (sort_region f r).2 n r).Perm (regionRecords f n r) := by
  obtain ⟨out, e, _, hperm, _⟩ := sort_region_ok f rc r n hdr hr1 hr2 hfit hs hrange
  have hreg := (region_of_file f n r hfit hs).bytes
  have hlen : out.length = n := by rw [hperm.length_eq, hreg.2.1]
  have hi : Int32s out := fun v hv => hreg.2.2 v (hperm.subset hv)
  have hrec : regionRecords (sort_region f r).2 n r = out := by
    rw [e]
    exact regionRecords_overwrite f n r out hlen hi hfit
  rw [hrec]
  refine ⟨by rw [e], fun v => hperm.count_eq v, hperm⟩

/-- Witness for C2 on region 2 of the sample file. -/
theorem sort_region_permutation_witness :
    read_header sampleFile = some (2, ((3 : Nat) : Int))
    ∧ (∀ v ∈ regionRecords sampleFile 3 2, -1000 ≤ v ∧ v ≤ 1000)
    ∧ (sort_region sampleFile 2).1 = .ok ()
    ∧ (∀ v : Int, (regionRecords (sort_region sampleFile 2).2 3 2).count v
        = (regionRecords sampleFile 3 2).count v)
    ∧ (regionRecords (sort_region sampleFile 2).2 3 2).Perm (regionRecords sampleFile 3 2) :=
  ⟨by decide, by decide,
   sort_region_permutation sampleFile 2 2 3 (by decide) (by decide) (by decide) (by decide)
     (by decide) (by decide)⟩

/-- C3: for a file with a valid header `(rc, n)`, a valid region id `r` and a region `r` in which
at least one record is less than `-1000` or greater than `1000`, `sort_region` fails with the
value-out-of-range error and the file is exactly what it was before the call. -/
theorem sort_region_rejects_out_of_range (f : File) (rc r : Int) (n : Nat)
    (hdr : read_header f = some (rc, (n : Int))) (hr1 : 1 ≤ r) (hr2 : r ≤ rc)
    (hfit : regionStart n r + 4 * n ≤ f.length) (hs : f.length ≤ OFF_MAX)
    (hbad : ∃ v ∈ regionRecords f n r, v < -1000 ∨ 1000 < v) :
    sort_region f r = (.error .valueOutOfRange, f) := by
  obtain ⟨_, htally⟩ := tally_of_region f rc r n hdr hr1 hr2 hfit hs
  have hrc := (read_header_range f rc n hdr).1
  unfold sort_region
  rw [hdr]
  dsimp only
  rw [if_neg (by omega), htally, tallyBlock_reject _ _ hbad]

/-- Witness for C3 on a one-region file holding the record 1001. -/
theorem sort_region_rejects_out_of_range_witness :
    read_header (mkFile 1 3 [4, 1001, -2]) = some (1, ((3 : Nat) : Int))
    ∧ (∃ v ∈ regionRecords (mkFile 1 3 [4, 1001, -2]) 3 1, v < -1000 ∨ 1000 < v)
    ∧ sort_region (mkFile 1 3 [4, 1001, -2]) 1
        = (.error .valueOutOfRange, mkFile 1 3 [4, 1001, -2]) :=
  ⟨by decide, by decide,
   sort_region_rejects_out_of_range (mkFile 1 3 [4, 1001, -2]) 1 1 3 (by decide) (by decide)
     (by decide) (by decide) (by decide) (by decide)⟩

/-- C4: with a readable header `(rc, rpr)`, a region id `r` with `r < 1` (in particular `r = 0`)
or `r > rc` makes `sort_region` fail with the invalid-region error and leaves the file
unmodified, and makes `compute_stats` fail with the invalid-region error; conversely either
tool reports the invalid-region error only when `r` is outside `[1, rc]`. -/
theorem invalid_region_error (f : File) (rc rpr r : Int)
    (hdr : read_header f = some (rc, rpr)) :
    ((r < 1 ∨ rc < r) →
        sort_region f r = (.error .invalidRegion, f)
        ∧ compute_stats f r = .error .invalidRegion)
    ∧ ((sort_region f r).1 = .error .invalidRegion → r < 1 ∨ rc < r)
    ∧ (compute_stats f r = .error .invalidRegion → r < 1 ∨ rc < r) := by
  have hrpr := (read_header_range f rc rpr hdr).2
  refine ⟨?_, ?_, ?_⟩
  · intro hbad
    have hbad1 : r < 1 ∨ r > rc := by omega
    unfold sort_region compute_stats
    rw [hdr]
    dsimp only
    rw [if_pos hbad1, if_pos hbad1]
    exact ⟨rfl, rfl⟩
  · intro h
    by_contra hgood
    have hgood1 : ¬ (r < 1 ∨ r > rc) := by omega
    unfold sort_region at h
    rw [hdr] at h
    dsimp only at h
    rw [if_neg hgood1] at h
    split at h
    · rename_i e he
      have := tallyLoop_error f rpr _ 0 _ _ e (by omega) hrpr.2 (by omega) he
      injection h with h
      subst h
      rcases this with h1 | h1 <;> cases h1
    · split at h
      · injection h with h; cases h
      · cases h
  · intro h
    by_contra hgood
    have hgood1 : ¬ (r < 1 ∨ r > rc) := by omega
    unfold compute_stats at h
    rw [hdr] at h
    dsimp only at h
    rw [if_neg hgood1] at h
    split at h
    · rename_i e he
      have := statsLoop_error f rpr _ 0 _ _ e (by omega) hrpr.2 (by omega) he
      injection h with h
      subst h
      cases this
    · split at h
      · rename_i e he
        have := median_step_error f _ _ e he
        injection h with h
        subst h
        cases this
      · cases h

/-- Witness for C4 on the sample file and region id 0. -/
theorem invalid_region_error_witness :
    read_header sampleFile = some (2, 3)
    ∧ sort_region sampleFile 0 = (.error .invalidRegion, sampleFile)
    ∧ compute_stats sampleFile 0 = .error .invalidRegion :=
  ⟨by decide, (invalid_region_error sampleFile 2 3 0 (by decide)).1 (Or.inl (by decide))⟩

/-- C5, as stated, fails: the header `(2147483647, 2147483647)` is readable and region
`2147483647` is valid, but the computed offset is `-25769803760`, not
`8 + 4 * records_per_region * (region_id - 1)`. -/
theorem region_offset_wraps :
    read_header (mkFile 2147483647 2147483647 []) = some (2147483647, 2147483647)
    ∧ (0 : Int) ≤ 2147483647 ∧ (1 : Int) ≤ 2147483647
    ∧ region_offset 2147483647 2147483647 = -25769803760
    ∧ region_offset 2147483647 2147483647 ≠ 8 + 4 * 2147483647 * (2147483647 - 1) := by
  decide

/-- C5, amended: for a header `(rc, rpr)` of 32-bit integers with `rpr ≥ 0` and a region id `r`
in `[1, rc]` such that `8 + 4 * rpr * (r - 1)` is a file offset (at most `2^63 - 1`), the byte
offset computed by both tools for the first record of region `r` is `8 + 4 * rpr * (r - 1)`;
for `rc = 3`, `rpr = 4`, `r = 2` it is `24`. -/
theorem region_offset_formula (rc rpr r : Int) (hrc : rc < 2147483648)
    (h0 : 0 ≤ rpr) (h1 : rpr < 2147483648) (hr1 : 1 ≤ r) (hr2 : r ≤ rc)
    (hfit : 8 + 4 * rpr * (r - 1) ≤ (OFF_MAX : Int)) :
    region_offset rpr r = 8 + 4 * rpr * (r - 1) ∧ region_offset 4 2 = 24 := by
  refine ⟨region_offset_eq rpr r h0 h1 hr1 (by omega) ?_, by decide⟩
  unfold OFF_MAX at hfit
  omega

/-- Witness for C5 on the header (3, 4) and region 2. -/
theorem region_offset_formula_witness :
    region_offset 4 2 = 8 + 4 * 4 * (2 - 1) ∧ region_offset 4 2 = 24 :=
  region_offset_formula 3 4 2 (by decide) (by decide) (by decide) (by decide) (by decide)
    (by decide)

/-! ## Properties of the statistics tool -/

/-- C6, as stated, fails: on the two-record region `[1073741824, 1073741824]` the median returned
is `-1073741824`, while the truncated average `(a + b) / 2` of the two middle records is
`1073741824`; the sum `a + b` is formed in 32-bit arithmetic. -/
theorem median_even_sum_wraps :
    regionRecords (mkFile 1 2 [1073741824, 1073741824]) 2 1 = [1073741824, 1073741824]
    ∧ compute_stats (mkFile 1 2 [1073741824, 1073741824]) 1
        = .ok ⟨1, -1073741824, (2147483648, 2), 1073741824, 1073741824⟩
    ∧ Int.tdiv (1073741824 + 1073741824) 2 = 1073741824 := by
  decide

/-- C6, amended: for a region with `n ≥ 1` records, `compute_stats` returns as median the record
at index `n / 2` when `n` is odd, and when `n` is even the average `(a + b) / 2`, truncated
toward zero, of the records `a`, `b` at indices `n / 2 - 1` and `n / 2`, provided `a + b` is a
32-bit signed integer (as it is for records in `[-1000, 1000]`). The region `[1, 2, 3, 4, 5]`
gives median `3` and the region `[1, 2, 3, 4]` gives median `2`. -/
theorem median_of_region (f : File) (rc r : Int) (n : Nat)
    (hdr : read_header f = some (rc, (n : Int))) (hr1 : 1 ≤ r) (hr2 : r ≤ rc) (hpos : 1 ≤ n)
    (hfit : regionStart n r + 4 * n ≤ f.length) (hs : f.length ≤ OFF_MAX)
    (hsum : n % 2 = 0 →
      -2147483648 ≤ (regionRecords f n r).getD (n / 2 - 1) 0 + (regionRecords f n r).getD (n / 2) 0
      ∧ (regionRecords f n r).getD (n / 2 - 1) 0 + (regionRecords f n r).getD (n / 2) 0
          < 2147483648) :
    (∃ st : region_stats, compute_stats f r = .ok st
      ∧ (n % 2 = 1 → (regionRecords f n r)[n / 2]? = some st.median)
      ∧ (n % 2 = 0 → ∃ a b, (regionRecords f n r)[n / 2 - 1]? = some a
            ∧ (regionRecords f n r)[n / 2]? = some b
            ∧ st.median = Int.tdiv (a + b) 2))
    ∧ compute_stats (mkFile 1 5 [1, 2, 3, 4, 5]) 1 = .ok ⟨1, 3, (15, 5), 5, 1⟩
    ∧ compute_stats (mkFile 1 4 [1, 2, 3, 4]) 1 = .ok ⟨1, 2, (10, 4), 4, 1⟩ := by
  refine ⟨?_, by decide, by decide⟩
  obtain ⟨st, e, _, _, _, _, hodd, heven⟩ := compute_stats_ok f rc r n hdr hr1 hr2 hpos hfit hs
  refine ⟨st, e, hodd, ?_⟩
  intro h0
  obtain ⟨a, b, ha, hb, hm⟩ := heven h0
  refine ⟨a, b, ha, hb, ?_⟩
  have hs2 := hsum h0
  rw [List.getD_eq_getElem?_getD, List.getD_eq_getElem?_getD, ha, hb] at hs2
  simp only [Option.getD_some] at hs2
  rw [hm, wrap32_of_range hs2.1 hs2.2]

/-- Witness for C6 on region 2 of the sample file. -/
theorem median_of_region_witness :
    read_header sampleFile = some (2, ((3 : Nat) : Int))
    ∧ ∃ st : region_stats, compute_stats sampleFile 2 = .ok st
      ∧ (3 % 2 = 1 → (regionRecords sampleFile 3 2)[3 / 2]? = some st.median)
      ∧ (3 % 2 = 0 → ∃ a b, (regionRecords sampleFile 3 2)[3 / 2 - 1]? = some a
            ∧ (regionRecords sampleFile 3 2)[3 / 2]? = some b
            ∧ st.median = Int.tdiv (a + b) 2) :=
  ⟨by decide,
   (median_of_region sampleFile 2 2 3 (by decide) (by decide) (by decide) (by decide)
     (by decide) (by decide) (by decide)).1⟩

/-- C7: for a non-empty region (records in any order, any record count), the streaming pass of
`compute_stats` yields as `min` the least record of the region, as `max` its greatest record,
and as running sum the exact integer sum of its records; the average is formed from that sum
and the record count. -/
theorem streaming_pass_min_max_sum (f : File) (rc r : Int) (n : Nat)
    (hdr : read_header f = some (rc, (n : Int))) (hr1 : 1 ≤ r) (hr2 : r ≤ rc) (hpos : 1 ≤ n)
    (hfit : regionStart n r + 4 * n ≤ f.length) (hs : f.length ≤ OFF_MAX) :
    ∃ st : region_stats, compute_stats f r = .ok st
      ∧ (st.min ∈ regionRecords f n r ∧ ∀ v ∈ regionRecords f n r, st.min ≤ v)
      ∧ (st.max ∈ regionRecords f n r ∧ ∀ v ∈ regionRecords f n r, v ≤ st.max)
      ∧ st.average = ((regionRecords f n r).sum, (n : Int)) := by
  obtain ⟨st, e, _, hmin, hmax, havg, _, _⟩ :=
    compute_stats_ok f rc r n hdr hr1 hr2 hpos hfit hs
  exact ⟨st, e, hmin, hmax, havg⟩

/-- Witness for C7 on region 1 of the sample file. -/
theorem streaming_pass_min_max_sum_witness :
    read_header sampleFile = some (2, ((3 : Nat) : Int))
    ∧ ∃ st : region_stats, compute_stats sampleFile 1 = .ok st
      ∧ (st.min ∈ regionRecords sampleFile 3 1 ∧ ∀ v ∈ regionRecords sampleFile 3 1, st.min ≤ v)
      ∧ (st.max ∈ regionRecords sampleFile 3 1 ∧ ∀ v ∈ regionRecords sampleFile 3 1, v ≤ st.max)
      ∧ st.average = ((regionRecords sampleFile 3 1).sum, ((3 : Nat) : Int)) :=
  ⟨by decide,
   streaming_pass_min_max_sum sampleFile 2 1 3 (by decide) (by decide) (by decide) (by decide)
     (by decide) (by decide)⟩

/-- C8: for a non-empty region of values in `[-1000, 1000]`, running `sort_region` and then
`compute_stats` on the same file and region reports the minimum, maximum and median of the
ascending arrangement `s` of the region's original records (first element, last element,
middle element or truncated average of the two middle elements), with the sum of the records
over their count as average. For the region `[5, -3, 0, 5, 2]` the sorted region is
`[-3, 0, 2, 5, 5]` and the result is min `-3`, max `5`, sum over count `9 / 5`, median `2`. -/
theorem sort_then_stats (f : File) (rc r : Int) (n : Nat)
    (hdr : read_header f = some (rc, (n : Int))) (hr1 : 1 ≤ r) (hr2 : r ≤ rc) (hpos : 1 ≤ n)
    (hfit : regionStart n r + 4 * n ≤ f.length) (hs : f.length ≤ OFF_MAX)
    (hrange : ∀ v ∈ regionRecords f n r, -1000 ≤ v ∧ v ≤ 1000)
    (s : List Int) (hsorted : s.Sorted (fun a b => a ≤ b)) (hperm : s.Perm (regionRecords f n r)) :
    ((sort_region f r).1 = .ok ()
      ∧ regionRecords (sort_region f r).2 n r = s
      ∧ ∃ st : region_stats, compute_stats (sort_region f r).2 r = .ok st
        ∧ s[0]? = some st.min
        ∧ s[n - 1]? = some st.max
        ∧ (n % 2 = 1 → s[n / 2]? = some st.median)
        ∧ (n % 2 = 0 → ∃ a b, s[n / 2 - 1]? = some a ∧ s[n / 2]? = some b
              ∧ st.median = Int.tdiv (a + b) 2)
        ∧ st.average = ((regionRecords f n r).sum, (n : Int)))
    ∧ regionRecords (sort_region exampleFile 1).2 5 1 = [-3, 0, 2, 5, 5]
    ∧ compute_stats (sort_region exampleFile 1).2 1 = .ok ⟨1, 2, (9, 5), 5, -3⟩ := by
  have key : ∀ (g : File) (rc1 r1 : Int) (m : Nat) (t : List Int),
      read_header g = some (rc1, (m : Int)) → 1 ≤ r1 → r1 ≤ rc1 → 1 ≤ m →
      regionStart m r1 + 4 * m ≤ g.length → g.length ≤ OFF_MAX →
      (∀ v ∈ regionRecords g m r1, -1000 ≤ v ∧ v ≤ 1000) →
      t.Sorted (fun a b => a ≤ b) → t.Perm (regionRecords g m r1) →
      (sort_region g r1).1 = .ok ()
      ∧ (sort_region g r1).2 = overwrite g (regionStart m r1) (encodeWords t)
      ∧ regionRecords (sort_region g r1).2 m r1 = t
      ∧ ∃ st : region_stats, compute_stats (sort_region g r1).2 r1 = .ok st
        ∧ t[0]? = some st.min
        ∧ t[m - 1]? = some st.max
        ∧ (m % 2 = 1 → t[m / 2]? = some st.median)
        ∧ (m % 2 = 0 → ∃ a b, t[m / 2 - 1]? = some a ∧ t[m / 2]? = some b
              ∧ st.median = Int.tdiv (a + b) 2)
        ∧ st.average = ((regionRecords g m r1).sum, (m : Int)) := by
    intro g rc1 r1 m t hdr1 h1 h2 hp hf hl hrg hst hpt
    have e := sort_region_eq g rc1 r1 m hdr1 h1 h2 hf hl hrg t hst hpt
    obtain ⟨fh, fl, fr⟩ := sorted_file g rc1 r1 m hdr1 hf hl t hpt
    have hlen : t.length = m := by
      rw [hpt.length_eq, (region_of_file g m r1 hf hl).bytes.2.1]
    rw [e]
    dsimp only
    refine ⟨rfl, rfl, fr, ?_⟩
    obtain ⟨st, e1, _, hmin, hmax, havg, hodd, heven⟩ :=
      compute_stats_ok _ rc1 r1 m fh h1 h2 hp (by rw [fl]; exact hf) (by rw [fl]; exact hl)
    rw [fr] at hmin hmax havg hodd heven
    refine ⟨st, e1, sorted_first t hst _ hmin.1 hmin.2, ?_, hodd, ?_, ?_⟩
    · have := sorted_last t hst _ hmax.1 hmax.2
      rwa [hlen] at this
    · intro h0
      obtain ⟨a, b, ha, hb, hm⟩ := heven h0
      refine ⟨a, b, ha, hb, ?_⟩
      have ra := hrg a (hpt.subset (List.getElem?_mem ha))
      have rb := hrg b (hpt.subset (List.getElem?_mem hb))
      rw [hm, wrap32_of_range (by omega) (by omega)]
    · rw [havg, hpt.sum_eq]
  refine ⟨?_, ?_⟩
  · obtain ⟨k1, _, k3, k4⟩ := key f rc r n s hdr hr1 hr2 hpos hfit hs hrange hsorted hperm
    exact ⟨k1, k3, k4⟩
  · obtain ⟨_, k2, k3, _⟩ := key exampleFile 1 1 5 [-3, 0, 2, 5, 5] (by decide) (by decide)
      (by decide) (by decide) (by decide) (by decide) (by decide) (by decide) (by decide)
    refine ⟨k3, ?_⟩
    rw [k2]
    decide

/-- Witness for C8 on region 2 of the sample file. -/
theorem sort_then_stats_witness :
    read_header sampleFile = some (2, ((3 : Nat) : Int))
    ∧ [-1000, 0, 1000].Perm (regionRecords sampleFile 3 2)
    ∧ (sort_region sampleFile 2).1 = .ok ()
    ∧ regionRecords (sort_region sampleFile 2).2 3 2 = [-1000, 0, 1000]
    ∧ ∃ st : region_stats, compute_stats (sort_region sampleFile 2).2 2 = .ok st
      ∧ [-1000, 0, 1000][0]? = some st.min
      ∧ [-1000, 0, 1000][3 - 1]? = some st.max
      ∧ (3 % 2 = 1 → [-1000, 0, 1000][3 / 2]? = some st.median)
      ∧ (3 % 2 = 0 → ∃ a b, [-1000, 0, 1000][3 / 2 - 1]? = some a
            ∧ [-1000, 0, 1000][3 / 2]? = some b ∧ st.median = Int.tdiv (a + b) 2)
      ∧ st.average = ((regionRecords sampleFile 3 2).sum, ((3 : Nat) : Int)) :=
  ⟨by decide, by decide,
   (sort_then_stats sampleFile 2 2 3 (by decide) (by decide) (by decide) (by decide)
     (by decide) (by decide) (by decide) [-1000, 0, 1000] (by decide) (by decide)).1⟩

/-! ## Algebraic properties of the sort tool -/

theorem overwrite_self (f : File) (n : Nat) (r : Int)
    (hfit : regionStart n r + 4 * n ≤ f.length) (hs : f.length ≤ OFF_MAX) :
    overwrite f (regionStart n r) (encodeWords (regionRecords f n r)) = f := by
  have hreg := region_of_file f n r hfit hs
  have hsplit := hreg.split
  unfold overwrite
  rw [encodeWords_length, hreg.bytes.2.1]
  exact hsplit.symm

/-- C9: for a file whose addressed region holds records in `[-1000, 1000]`, if the region is
already in ascending order then `sort_region` succeeds and leaves the whole file byte-identical;
and in any case applying `sort_region` twice gives the same result and file as applying it
once. -/
theorem sort_region_idempotent (f : File) (rc r : Int) (n : Nat)
    (hdr : read_header f = some (rc, (n : Int))) (hr1 : 1 ≤ r) (hr2 : r ≤ rc)
    (hfit : regionStart n r + 4 * n ≤ f.length) (hs : f.length ≤ OFF_MAX)
    (hrange : ∀ v ∈ regionRecords f n r, -1000 ≤ v ∧ v ≤ 1000) :
    ((regionRecords f n r).Sorted (fun a b => a ≤ b) → sort_region f r = (.ok (), f))
    ∧ sort_region (sort_region f r).2 r = sort_region f r := by
  constructor
  · intro hsorted
    rw [sort_region_eq f rc r n hdr hr1 hr2 hfit hs hrange _ hsorted (List.Perm.refl _),
      overwrite_self f n r hfit hs]
  · obtain ⟨out, e, hsorted, hperm, hout⟩ := sort_region_ok f rc r n hdr hr1 hr2 hfit hs hrange
    obtain ⟨fh, fl, fr⟩ := sorted_file f rc r n hdr hfit hs out hperm
    have hfit1 : regionStart n r + 4 * n
        ≤ (overwrite f (regionStart n r) (encodeWords out)).length := by rw [fl]; exact hfit
    have hs1 : (overwrite f (regionStart n r) (encodeWords out)).length ≤ OFF_MAX := by
      rw [fl]; exact hs
    have e2 := sort_region_eq _ rc r n fh hr1 hr2 hfit1 hs1 (by rw [fr]; exact hout) out hsorted
      (by rw [fr])
    have hself := overwrite_self _ n r hfit1 hs1
    rw [fr] at hself
    rw [e]
    dsimp only
    rw [e2, hself]

/-- Witness for C9 on a file whose region 2 is already ascending. -/
theorem sort_region_idempotent_witness :
    read_header (mkFile 2 3 [7, -3, 5, -1000, 0, 1000]) = some (2, ((3 : Nat) : Int))
    ∧ (regionRecords (mkFile 2 3 [7, -3, 5, -1000, 0, 1000]) 3 2).Sorted (fun a b => a ≤ b)
    ∧ sort_region (mkFile 2 3 [7, -3, 5, -1000, 0, 1000]) 2
        = (.ok (), mkFile 2 3 [7, -3, 5, -1000, 0, 1000]) :=
  ⟨by decide, by decide,
   (sort_region_idempotent (mkFile 2 3 [7, -3, 5, -1000, 0, 1000]) 2 2 3 (by decide) (by decide)
     (by decide) (by decide) (by decide) (by decide)).1 (by decide)⟩

/-- C10: for two files of the same length that agree on every byte before and after the
addressed region and whose addressed regions are permutations of one another, with all values
in `[-1000, 1000]`, `sort_region` gives the same result and the same file contents. -/
theorem sort_region_permutation_invariant (f g : File) (rc r : Int) (n : Nat)
    (hdrf : read_header f = some (rc, (n : Int))) (hdrg : read_header g = some (rc, (n : Int)))
    (hr1 : 1 ≤ r) (hr2 : r ≤ rc)
    (hfit : regionStart n r + 4 * n ≤ f.length) (hs : f.length ≤ OFF_MAX)
    (hlen : g.length = f.length)
    (hbefore : g.take (regionStart n r) = f.take (regionStart n r))
    (hafter : g.drop (regionStart n r + 4 * n) = f.drop (regionStart n r + 4 * n))
    (hperm : (regionRecords g n r).Perm (regionRecords f n r))
    (hrange : ∀ v ∈ regionRecords f n r, -1000 ≤ v ∧ v ≤ 1000) :
    sort_region g r = sort_region f r := by
  obtain ⟨out, e, hsorted, hout, _⟩ := sort_region_ok f rc r n hdrf hr1 hr2 hfit hs hrange
  have eg := sort_region_eq g rc r n hdrg hr1 hr2 (by rw [hlen]; exact hfit)
    (by rw [hlen]; exact hs) (fun v hv => hrange v (hperm.subset hv)) out hsorted
    (hout.trans hperm.symm)
  have hl : (encodeWords out).length = 4 * n := by
    rw [encodeWords_length, hout.length_eq, (region_of_file f n r hfit hs).bytes.2.1]
  rw [e, eg]
  unfold overwrite
  rw [hl, hbefore, hafter]

/-- Witness for C10 on the sample file and a rearrangement of its region 2. -/
theorem sort_region_permutation_invariant_witness :
    (regionRecords (mkFile 2 3 [7, -3, 5, 0, 1000, -1000]) 3 2).Perm
        (regionRecords sampleFile 3 2)
    ∧ sort_region (mkFile 2 3 [7, -3, 5, 0, 1000, -1000]) 2 = sort_region sampleFile 2 :=
  ⟨by decide,
   sort_region_permutation_invariant sampleFile (mkFile 2 3 [7, -3, 5, 0, 1000, -1000]) 2 2 3
     (by decide) (by decide) (by decide) (by decide) (by decide) (by decide) (by decide)
     (by decide) (by decide) (by decide) (by decide)⟩

/-! ## Empty regions and truncated files -/

theorem rewriteLoop_zero (counts : List Int) (hz : ∀ i : Nat, counts.getD i 0 ≤ 0) :
    ∀ (idxs : List Nat) (f : File) (o : Int),
    rewriteLoop counts idxs f o = .ok (f, o) ∧ rewriteLoopOffsets counts idxs f o = [] := by
  intro idxs
  induction idxs with
  | nil => intro f o; exact ⟨rfl, rfl⟩
  | cons i rest ih =>
    intro f o
    have := hz i
    rw [rewriteLoop, rewriteLoopOffsets, if_neg (by omega), if_neg (by omega)]
    exact ih f o

theorem getD_replicate_zero (k i : Nat) : (List.replicate k (0 : Int)).getD i 0 = 0 := by
  rw [List.getD_eq_getElem?_getD, List.getElem?_replicate]
  split <;> rfl

theorem sort_region_of_passes (f : File) (rc rpr r : Int)
    (hdr : read_header f = some (rc, rpr)) (hne : ¬(r < 1 ∨ r > rc)) (c0 : List Int)
    (ht : tallyLoop f rpr rpr.toNat 0 (region_offset rpr r) (List.replicate RANGE.toNat 0)
      = .ok c0)
    (f1 : File) (o1 : Int)
    (hrw : rewriteLoop c0 (List.range RANGE.toNat) f (region_offset rpr r) = .ok (f1, o1)) :
    sort_region f r = (.ok (), f1) := by
  unfold sort_region
  rw [hdr]
  dsimp only
  rw [if_neg hne, ht]
  dsimp only
  rw [hrw]

theorem sort_region_io_of_tally (f : File) (rc rpr r : Int)
    (hdr : read_header f = some (rc, rpr)) (hne : ¬(r < 1 ∨ r > rc)) (c0 : List Int)
    (ht : tallyLoop f rpr rpr.toNat 0 (region_offset rpr r) (List.replicate RANGE.toNat 0)
      = .ok c0) :
    sort_region_io f r
      = (tallyLoopReads f rpr rpr.toNat 0 (region_offset rpr r) (List.replicate RANGE.toNat 0),
         rewriteLoopOffsets c0 (List.range RANGE.toNat) f (region_offset rpr r)) := by
  unfold sort_region_io
  rw [hdr]
  dsimp only
  rw [if_neg hne, ht]

theorem sort_region_no_records (f : File) (rc rpr r : Int)
    (hdr : read_header f = some (rc, rpr)) (h0 : rpr ≤ 0) (hr1 : 1 ≤ r) (hr2 : r ≤ rc) :
    sort_region f r = (.ok (), f) ∧ sort_region_io f r = ([], []) := by
  have hz := rewriteLoop_zero (List.replicate RANGE.toNat 0)
    (fun i => le_of_eq (getD_replicate_zero _ i)) (List.range RANGE.toNat) f (region_offset rpr r)
  have hfuel : rpr.toNat = 0 := by omega
  have ht : tallyLoop f rpr rpr.toNat 0 (region_offset rpr r) (List.replicate RANGE.toNat 0)
      = .ok (List.replicate RANGE.toNat 0) := by
    rw [hfuel, tallyLoop, if_neg (by omega)]
  have hreads : tallyLoopReads f rpr rpr.toNat 0 (region_offset rpr r)
      (List.replicate RANGE.toNat 0) = [] := by
    rw [hfuel, tallyLoopReads]
  have hne : ¬(r < 1 ∨ r > rc) := by omega
  refine ⟨sort_region_of_passes f rc rpr r hdr hne _ ht f _ hz.1, ?_⟩
  rw [sort_region_io_of_tally f rc rpr r hdr hne _ ht, hreads, hz.2]

/-- C12: for a file whose header gives `records_per_region = 0` and a region id in
`[1, region_count]`, `sort_region` succeeds, issues no positioned read of region data and no
positioned write, and leaves the file unchanged. -/
theorem sort_region_empty_region (f : File) (rc r : Int)
    (hdr : read_header f = some (rc, 0)) (hr1 : 1 ≤ r) (hr2 : r ≤ rc) :
    sort_region f r = (.ok (), f) ∧ sort_region_io f r = ([], []) :=
  sort_region_no_records f rc 0 r hdr le_rfl hr1 hr2

/-- Witness for C12 on a three-region file with no records. -/
theorem sort_region_empty_region_witness :
    read_header (mkFile 3 0 []) = some (3, 0)
    ∧ sort_region (mkFile 3 0 []) 2 = (.ok (), mkFile 3 0 [])
    ∧ sort_region_io (mkFile 3 0 []) 2 = ([], []) :=
  ⟨by decide, sort_region_empty_region (mkFile 3 0 []) 3 2 (by decide) (by decide) (by decide)⟩

theorem readInt_some_length (f : File) (o : Nat) (v : Int) (h : readInt f (o : Int) = some v) :
    o + 4 ≤ f.length := by
  unfold readInt pread at h
  rw [if_neg (by omega), Int.toNat_ofNat] at h
  by_contra hlt
  have hl : ((f.drop o).take 4).length < 4 := by
    rw [List.length_take, List.length_drop]; omega
  revert h
  generalize (f.drop o).take 4 = bs at hl
  match bs, hl with
  | [], _ => intro h; cases h
  | [_], _ => intro h; cases h
  | [_, _], _ => intro h; cases h
  | [_, _, _], _ => intro h; cases h
  | _ :: _ :: _ :: _ :: _, hl => simp at hl; omega

theorem read_header_length (f : File) (a b : Int) (h : read_header f = some (a, b)) :
    8 ≤ f.length := by
  unfold read_header at h
  split at h
  · cases h
  · split at h
    · cases h
    · rename_i y hy
      exact readInt_some_length f 4 y hy

/-- A tally loop that succeeds has read every remaining record from inside the file. -/
theorem tallyLoop_ok_fit (f : File) (total : Int) (hs : f.length ≤ OFF_MAX)
    (ht : total < 2147483648) : ∀ (fuel : Nat) (rr cur : Int) (counts c : List Int),
    0 ≤ rr → tallyLoop f total fuel rr cur counts = .ok c → rr < total →
    0 ≤ cur ∧ cur + 4 * (total - rr) ≤ f.length := by
  intro fuel
  induction fuel with
  | zero =>
    intro rr cur counts c _ h hlt
    rw [tallyLoop, if_pos hlt] at h
    cases h
  | succ fuel ih =>
    intro rr cur counts c h0 h hlt
    have hto : ∃ t : Int, (if total - rr < BUFFER_SIZE then total - rr else BUFFER_SIZE) = t
        ∧ 1 ≤ t ∧ t ≤ total - rr ∧ t ≤ 4096 := by
      refine ⟨_, rfl, ?_, ?_, ?_⟩ <;> unfold BUFFER_SIZE <;> split <;> omega
    obtain ⟨t, et, t1, t2, t3⟩ := hto
    have hsz : toSizeT (toSizeT t * 4) = 4 * t := by unfold toSizeT; omega
    rw [tallyLoop, if_pos hlt] at h
    dsimp only at h
    rw [et, hsz] at h
    by_cases hcur : cur < 0
    · rw [pread, if_pos hcur] at h
      cases h
    · rw [pread, if_neg hcur] at h
      dsimp only at h
      split at h
      · cases h
      · rename_i hlen
        have hlen2 : (((f.drop cur.toNat).take (4 * t).toNat).length : Int) = 4 * t := by
          by_contra hx
          exact hlen hx
        rw [List.length_take, List.length_drop] at hlen2
        have hfit : cur + 4 * t ≤ f.length := by omega
        unfold OFF_MAX at hs
        split at h
        · cases h
        · rw [wrap32_of_range (by omega) (by omega), List.length_take, List.length_drop] at h
          by_cases hmore : rr + t < total
          · have := ih _ _ _ c (by omega) h hmore
            rw [wrap64_of_range (by omega) (by omega)] at this
            omega
          · omega

theorem region_offset_of_nonneg (rpr r : Int) (h0 : 0 ≤ rpr) (h1 : rpr < 2147483648)
    (hr1 : 1 ≤ r) (hr2 : r < 2147483648) (hnn : 0 ≤ region_offset rpr r) :
    region_offset rpr r = 8 + 4 * rpr * (r - 1) := by
  have e1 : toSizeT (4 * 2) = 8 := by decide
  have e2 : toSizeT (4 * toSizeT rpr) = 4 * rpr := by unfold toSizeT; omega
  have e3 : toSizeT (wrap32 (r - 1)) = r - 1 := by unfold toSizeT wrap32; omega
  have hp : 0 ≤ rpr * (r - 1) := Int.mul_nonneg h0 (by omega)
  have hq : rpr * (r - 1) ≤ 2147483647 * 2147483646 :=
    Int.mul_le_mul (by omega) (by omega) (by omega) (by omega)
  have hm : 4 * rpr * (r - 1) = 4 * (rpr * (r - 1)) := by ring
  unfold region_offset at hnn ⊢
  rw [e1, e2, e3, hm] at hnn ⊢
  generalize rpr * (r - 1) = p at hp hq hnn ⊢
  unfold wrap64 toSizeT at hnn ⊢
  omega

/-- C13: for a file with a readable header `(rc, rpr)` and a valid region id `r` whose length
is smaller than the byte offset `8 + 4 * rpr * r` of the end of the addressed region,
`sort_region` fails (with the read error or the range error) and leaves the file unmodified. -/
theorem sort_region_truncated_file (f : File) (rc rpr r : Int)
    (hdr : read_header f = some (rc, rpr)) (hr1 : 1 ≤ r) (hr2 : r ≤ rc)
    (hs : f.length ≤ OFF_MAX) (hshort : (f.length : Int) < 8 + 4 * rpr * r) :
    (sort_region f r = (.error .regionRead, f) ∨ sort_region f r = (.error .valueOutOfRange, f))
    ∧ (sort_region f r).2 = f := by
  obtain ⟨hrc, hrpr⟩ := read_header_range f rc rpr hdr
  have h8 := read_header_length f rc rpr hdr
  have hpos : 0 < rpr := by
    by_contra hle
    have : rpr * r ≤ 0 := Int.mul_nonpos_of_nonpos_of_nonneg (by omega) (by omega)
    have hm : 4 * rpr * r = 4 * (rpr * r) := by ring
    rw [hm] at hshort
    omega
  have hne : ¬(r < 1 ∨ r > rc) := by omega
  have hfail : ∀ c, tallyLoop f rpr rpr.toNat 0 (region_offset rpr r)
      (List.replicate RANGE.toNat 0) ≠ .ok c := by
    intro c hc
    obtain ⟨hnn, hfit⟩ := tallyLoop_ok_fit f rpr hs hrpr.2 _ _ _ _ c le_rfl hc hpos
    rw [region_offset_of_nonneg rpr r (by omega) hrpr.2 hr1 (by omega) hnn] at hfit
    have hm : 4 * rpr * r = 4 * rpr * (r - 1) + 4 * rpr := by ring
    rw [hm] at hshort
    generalize 4 * rpr * (r - 1) = p at hfit hshort
    omega
  have key : ∀ res, tallyLoop f rpr rpr.toNat 0 (region_offset rpr r)
      (List.replicate RANGE.toNat 0) = res →
      sort_region f r = (.error .regionRead, f)
        ∨ sort_region f r = (.error .valueOutOfRange, f) := by
    intro res hres
    cases res with
    | ok c => exact absurd hres (hfail c)
    | error e =>
      have he := tallyLoop_error f rpr _ 0 _ _ e (by omega) hrpr.2 (by omega) hres
      have hsr : sort_region f r = (.error e, f) := by
        unfold sort_region
        rw [hdr]
        dsimp only
        rw [if_neg hne, hres]
      rcases he with he | he
      · right; rw [hsr, he]
      · left; rw [hsr, he]
  have hk := key _ rfl
  refine ⟨hk, ?_⟩
  rcases hk with h | h <;> rw [h]

/-- Witness for C13 on a file whose header announces three records but which holds two. -/
theorem sort_region_truncated_file_witness :
    read_header (mkFile 1 3 [4, 5]) = some (1, 3)
    ∧ ((mkFile 1 3 [4, 5]).length : Int) < 8 + 4 * 3 * 1
    ∧ (sort_region (mkFile 1 3 [4, 5]) 1 = (.error .regionRead, mkFile 1 3 [4, 5])
        ∨ sort_region (mkFile 1 3 [4, 5]) 1 = (.error .valueOutOfRange, mkFile 1 3 [4, 5]))
    ∧ (sort_region (mkFile 1 3 [4, 5]) 1).2 = mkFile 1 3 [4, 5] :=
  ⟨by decide, by decide,
   sort_region_truncated_file (mkFile 1 3 [4, 5]) 1 3 1 (by decide) (by decide) (by decide)
     (by decide) (by decide)⟩

/-! ## Frame of the rewrite pass -/

theorem offsetsFrom_length (k : Nat) : ∀ o : Nat, (offsetsFrom o k).length = k := by
  induction k with
  | zero => intro o; rfl
  | succ k ih => intro o; rw [offsetsFrom, List.length_cons, ih]

theorem offsetsFrom_append (a b : Nat) : ∀ o : Nat,
    offsetsFrom o (a + b) = offsetsFrom o a ++ offsetsFrom (o + 4 * a) b := by
  induction a with
  | zero => intro o; rw [Nat.zero_add, offsetsFrom, List.nil_append, Nat.mul_zero, Nat.add_zero]
  | succ a ih =>
    intro o
    rw [show a + 1 + b = (a + b) + 1 by omega, offsetsFrom, offsetsFrom, ih, List.cons_append,
      show o + 4 + 4 * a = o + 4 * (a + 1) by omega]

theorem offsetsFrom_mem (k : Nat) : ∀ (o : Nat) (x : Int), x ∈ offsetsFrom o k →
    (o : Int) ≤ x ∧ x + 4 ≤ ((o + 4 * k : Nat) : Int) := by
  induction k with
  | zero => intro o x hx; cases hx
  | succ k ih =>
    intro o x hx
    rw [offsetsFrom, List.mem_cons] at hx
    rcases hx with e | hx
    · rw [e]; omega
    · have := ih (o + 4) x hx
      omega

theorem writeRunOffsets_ok (temp : Int) : ∀ (j : Nat) (f : File) (o : Nat),
    o + 4 * j ≤ f.length → f.length ≤ OFF_MAX →
    writeRunOffsets temp j f (o : Int) = offsetsFrom o j := by
  intro j
  induction j with
  | zero => intro f o _ _; rfl
  | succ j ih =>
    intro f o h hs
    have hw : pwrite f (encodeInt temp) (o : Int) = some (overwrite f o (encodeInt temp), 4) :=
      pwrite_inside f (encodeInt temp) o (by rw [encodeInt_length]; omega)
    have hl := overwrite_length f o (encodeInt temp) (by rw [encodeInt_length]; omega)
    have hoff : wrap64 ((o : Int) + 4) = ((o + 4 : Nat) : Int) := by
      unfold OFF_MAX at hs
      rw [wrap64_of_range (by omega) (by omega)]; rfl
    rw [writeRunOffsets, hw]
    show (o : Int) :: (if (4 : Int) ≠ 4 then []
      else writeRunOffsets temp j (overwrite f o (encodeInt temp)) (wrap64 ((o : Int) + 4))) = _
    rw [if_neg (by decide), hoff, ih _ (o + 4) (by rw [hl]; omega) (by rw [hl]; exact hs),
      offsetsFrom]

theorem rewriteLoopOffsets_ok (counts : List Int) : ∀ (idxs : List Nat) (f : File) (o : Nat),
    o + 4 * (rewriteOutput counts idxs).length ≤ f.length → f.length ≤ OFF_MAX →
    rewriteLoopOffsets counts idxs f (o : Int)
      = offsetsFrom o (rewriteOutput counts idxs).length := by
  intro idxs
  induction idxs with
  | nil => intro f o _ _; rfl
  | cons i rest ih =>
    intro f o h hs
    have hout : rewriteOutput counts (i :: rest)
        = List.replicate (counts.getD i 0).toNat (wrap32 ((i : Int) + MIN_TEMP))
          ++ rewriteOutput counts rest := by
      simp only [rewriteOutput, List.flatMap_cons]
    rw [hout, List.length_append, List.length_replicate] at h
    rw [rewriteLoopOffsets, hout, List.length_append, List.length_replicate]
    by_cases hc : counts.getD i 0 > 0
    · have hl := overwrite_length f o
        (encodeWords (List.replicate (counts.getD i 0).toNat (wrap32 ((i : Int) + MIN_TEMP))))
        (by rw [encodeWords_length, List.length_replicate]; omega)
      rw [if_pos hc, writeRunOffsets_ok _ _ f o (by omega) hs, writeRun_ok _ _ f o (by omega) hs]
      dsimp only
      rw [ih _ _ (by rw [hl]; omega) (by rw [hl]; exact hs), offsetsFrom_append]
    · rw [if_neg hc]
      have hz : (counts.getD i 0).toNat = 0 := by omega
      rw [hz, Nat.zero_add] at h ⊢
      exact ih f o h hs

theorem drop_overwrite_after (f : File) (o : Nat) (data : List Byte) (a : Nat)
    (ho : o ≤ f.length) (ha : o + data.length ≤ a) :
    (overwrite f o data).drop a = f.drop a := by
  have hA : (f.take o ++ data).length = o + data.length := by
    rw [List.length_append, List.length_take]; omega
  unfold overwrite
  rw [show a = (o + data.length) + (a - (o + data.length)) by omega, ← List.drop_drop,
    List.drop_left' hA, List.drop_drop]

theorem take_overwrite_before (f : File) (o : Nat) (data : List Byte) (ho : o ≤ f.length) :
    (overwrite f o data).take o = f.take o := by
  have h := take_drop_overwrite f o data 0 o (by omega) ho
  rwa [List.drop_zero, List.drop_zero] at h

theorem regionStart_mono (n : Nat) (q r : Int) (hq : 1 ≤ q) (hqr : q < r) :
    regionStart n q + 4 * n ≤ regionStart n r := by
  unfold regionStart
  have h1 : (q - 1).toNat + 1 ≤ (r - 1).toNat := by omega
  have h2 := Nat.mul_le_mul_left (4 * n) h1
  rw [Nat.mul_add, Nat.mul_one] at h2
  omega

theorem sum_map_toNat (c : List Int) : ∀ l : List Nat, (∀ i ∈ l, 0 ≤ c.getD i 0) →
    (l.map (fun i => c.getD i 0)).sum
      = (((l.map (fun i => (c.getD i 0).toNat)).sum : Nat) : Int) := by
  intro l
  induction l with
  | nil => intro _; rfl
  | cons i rest ih =>
    intro h
    have h0 := h i (List.mem_cons_self _ _)
    rw [List.map_cons, List.map_cons, List.sum_cons, List.sum_cons,
      ih (fun j hj => h j (List.mem_cons_of_mem _ hj))]
    push_cast
    omega

theorem map_getD_range (c : List Int) : (List.range c.length).map (fun i => c.getD i 0) = c := by
  apply List.ext_getElem?
  intro k
  rw [List.getElem?_map]
  by_cases hk : k < c.length
  · rw [List.getElem?_range hk, List.getElem?_eq_getElem hk]
    show some (c.getD k 0) = _
    rw [List.getD_eq_getElem c 0 hk]
  · rw [List.getElem?_eq_none (by rw [List.length_range]; omega),
      List.getElem?_eq_none (by omega)]
    rfl

theorem rewriteOutput_length (counts : List Int) : ∀ idxs : List Nat,
    (rewriteOutput counts idxs).length = (idxs.map (fun i => (counts.getD i 0).toNat)).sum := by
  intro idxs
  induction idxs with
  | nil => rfl
  | cons i rest ih =>
    have hout : rewriteOutput counts (i :: rest)
        = List.replicate (counts.getD i 0).toNat (wrap32 ((i : Int) + MIN_TEMP))
          ++ rewriteOutput counts rest := by
      simp only [rewriteOutput, List.flatMap_cons]
    rw [hout, List.length_append, List.length_replicate, ih, List.map_cons, List.sum_cons]

/-- The entries of the histogram of a region add up to its number of records. -/
theorem hist_sum (counts recs : List Int) (hh : Hist counts recs)
    (hr : ∀ v ∈ recs, -1000 ≤ v ∧ v ≤ 1000) : counts.sum = (recs.length : Int) := by
  have hperm := rewriteOutput_perm counts recs hh hr
  have hlen := rewriteOutput_length counts (List.range 2001)
  have hnn : ∀ i ∈ List.range 2001, 0 ≤ counts.getD i 0 := by
    intro i hi
    rw [hh.2 i (List.mem_range.mp hi)]
    exact Int.ofNat_nonneg _
  have hs := sum_map_toNat counts (List.range 2001) hnn
  have hm := map_getD_range counts
  rw [hh.1] at hm
  rw [hm] at hs
  rw [hs, ← hlen, hperm.length_eq]

/-- Both passes of the sort tool on a region of in-range records lying inside the file. -/
theorem sort_region_passes (f : File) (rc r : Int) (n : Nat)
    (hdr : read_header f = some (rc, (n : Int))) (hr1 : 1 ≤ r) (hr2 : r ≤ rc)
    (hfit : regionStart n r + 4 * n ≤ f.length) (hs : f.length ≤ OFF_MAX)
    (hrange : ∀ v ∈ regionRecords f n r, -1000 ≤ v ∧ v ≤ 1000) :
    ∃ counts : List Int,
      tallyLoop f n (n : Int).toNat 0 (region_offset n r) (List.replicate RANGE.toNat 0)
        = .ok counts
      ∧ Hist counts (regionRecords f n r)
      ∧ (rewriteOutput counts (List.range 2001)).length = n
      ∧ sort_region f r
          = (.ok (), overwrite f (regionStart n r)
              (encodeWords (rewriteOutput counts (List.range 2001))))
      ∧ (sort_region_io f r).2 = offsetsFrom (regionStart n r) n := by
  obtain ⟨hoff, htally⟩ := tally_of_region f rc r n hdr hr1 hr2 hfit hs
  obtain ⟨hrc, hn⟩ := read_header_range f rc n hdr
  have hreg := region_of_file f n r hfit hs
  obtain ⟨counts, hc1, hc2⟩ := tallyBlock_hist (regionRecords f n r) [] _ hrange hist_init
    (by rw [hreg.bytes.2.1]; simp only [List.length_nil]; omega)
  rw [List.nil_append] at hc2
  have hperm := rewriteOutput_perm counts _ hc2 hrange
  have hlen : (rewriteOutput counts (List.range 2001)).length = n := by
    rw [hperm.length_eq, hreg.bytes.2.1]
  have hne : ¬(r < 1 ∨ r > rc) := by omega
  have ht := htally.trans hc1
  have hrw := rewriteLoop_ok counts (List.range 2001) f (regionStart n r)
    (by rw [hlen]; exact hfit) hs
  have hro := rewriteLoopOffsets_ok counts (List.range 2001) f (regionStart n r)
    (by rw [hlen]; exact hfit) hs
  rw [← hoff, ← RANGE_toNat] at hrw hro
  refine ⟨counts, ht, hc2, hlen, ?_, ?_⟩
  · rw [sort_region_of_passes f rc n r hdr hne counts ht _ _ hrw, RANGE_toNat]
  · rw [sort_region_io_of_tally f rc n r hdr hne counts ht]
    dsimp only
    rw [hro, RANGE_toNat, hlen]

/-- C16: for a file with a valid region id and an in-range region, a successful sort issues
exactly `records_per_region` writes of one record each (the histogram counts add up to
`records_per_region`), every one inside the byte range `[8 + 4*rpr*(r-1), 8 + 4*rpr*r)`; the
file length, the header, every byte outside that range and so the records of every other region
are unchanged. -/
theorem sort_region_frame (f : File) (rc r : Int) (n : Nat)
    (hdr : read_header f = some (rc, (n : Int))) (hr1 : 1 ≤ r) (hr2 : r ≤ rc)
    (hfit : regionStart n r + 4 * n ≤ f.length) (hs : f.length ≤ OFF_MAX)
    (hrange : ∀ v ∈ regionRecords f n r, -1000 ≤ v ∧ v ≤ 1000) :
    (sort_region f r).1 = .ok ()
    ∧ (sort_region_io f r).2.length = n
    ∧ (∀ o ∈ (sort_region_io f r).2,
        8 + 4 * (n : Int) * (r - 1) ≤ o ∧ o + 4 ≤ 8 + 4 * (n : Int) * r)
    ∧ (∃ counts : List Int,
        tallyLoop f n (n : Int).toNat 0 (region_offset n r) (List.replicate RANGE.toNat 0)
          = .ok counts
        ∧ counts.sum = (n : Int))
    ∧ (sort_region f r).2.length = f.length
    ∧ read_header (sort_region f r).2 = read_header f
    ∧ (sort_region f r).2.take (regionStart n r) = f.take (regionStart n r)
    ∧ (sort_region f r).2.drop (regionStart n r + 4 * n) = f.drop (regionStart n r + 4 * n)
    ∧ (∀ q : Int, 1 ≤ q → q ≠ r →
        regionRecords (sort_region f r).2 n q = regionRecords f n q) := by
  obtain ⟨counts, ht, hh, hlen, hsr, hio⟩ :=
    sort_region_passes f rc r n hdr hr1 hr2 hfit hs hrange
  have hreg := region_of_file f n r hfit hs
  have hel : (encodeWords (rewriteOutput counts (List.range 2001))).length = 4 * n := by
    rw [encodeWords_length, hlen]
  have hcast := regionStart_cast n r hr1
  rw [hsr, hio]
  dsimp only
  refine ⟨rfl, offsetsFrom_length n _, ?_, ⟨counts, ht, ?_⟩, ?_, ?_, ?_, ?_, ?_⟩
  · intro o ho
    have := offsetsFrom_mem n _ o ho
    have hm : 4 * (n : Int) * r = 4 * (n : Int) * (r - 1) + 4 * n := by ring
    rw [hm, ← hcast]
    omega
  · rw [hist_sum counts _ hh hrange, hreg.bytes.2.1]
  · exact overwrite_length f _ _ (by rw [hel]; exact hfit)
  · exact read_header_overwrite f _ _ (regionStart_ge n r) (by omega)
  · exact take_overwrite_before f _ _ (by omega)
  · exact drop_overwrite_after f _ _ _ (by omega) (by rw [hel])
  · intro q hq1 hqr
    unfold regionRecords
    rcases lt_or_gt_of_ne hqr with hlt | hgt
    · have := regionStart_mono n q r hq1 hlt
      rw [take_drop_overwrite f _ _ (regionStart n q) (4 * n) this (by omega)]
    · have := regionStart_mono n r q hr1 hgt
      rw [drop_overwrite_after f _ _ (regionStart n q) (by omega) (by rw [hel]; exact this)]

/-- Witness for C16 on region 2 of the sample file. -/
theorem sort_region_frame_witness :
    read_header sampleFile = some (2, ((3 : Nat) : Int))
    ∧ (sort_region sampleFile 2).1 = .ok ()
    ∧ (sort_region_io sampleFile 2).2.length = 3
    ∧ (∀ o ∈ (sort_region_io sampleFile 2).2,
        8 + 4 * ((3 : Nat) : Int) * (2 - 1) ≤ o ∧ o + 4 ≤ 8 + 4 * ((3 : Nat) : Int) * 2)
    ∧ (∃ counts : List Int,
        tallyLoop sampleFile ((3 : Nat) : Int) ((3 : Nat) : Int).toNat 0
            (region_offset ((3 : Nat) : Int) 2) (List.replicate RANGE.toNat 0) = .ok counts
        ∧ counts.sum = ((3 : Nat) : Int))
    ∧ (sort_region sampleFile 2).2.length = sampleFile.length
    ∧ read_header (sort_region sampleFile 2).2 = read_header sampleFile
    ∧ (sort_region sampleFile 2).2.take (regionStart 3 2) = sampleFile.take (regionStart 3 2)
    ∧ (sort_region sampleFile 2).2.drop (regionStart 3 2 + 4 * 3)
        = sampleFile.drop (regionStart 3 2 + 4 * 3)
    ∧ (∀ q : Int, 1 ≤ q → q ≠ 2 →
        regionRecords (sort_region sampleFile 2).2 3 q = regionRecords sampleFile 3 q) :=
  ⟨by decide,
   sort_region_frame sampleFile 2 2 3 (by decide) (by decide) (by decide) (by decide)
     (by decide) (by decide)⟩

/-! ## Histogram safety -/

theorem tallyBlock_ok_range (vs : List Int) : ∀ (counts c : List Int),
    tallyBlock vs counts = .ok c → ∀ v ∈ vs, -1000 ≤ v ∧ v ≤ 1000 := by
  induction vs with
  | nil => intro _ _ _ v hv; cases hv
  | cons w ws ih =>
    intro counts c h v hv
    rw [tallyBlock] at h
    split at h
    · cases h
    · rename_i hw
      unfold MIN_TEMP MAX_TEMP at hw
      rcases List.mem_cons.mp hv with e | hmem
      · rw [e]; omega
      · exact ih _ c h v hmem

theorem tallyBlock_ok_hist (vs c : List Int) (hl : vs.length < 2147483648)
    (h : tallyBlock vs (List.replicate RANGE.toNat 0) = .ok c) :
    Hist c vs ∧ ∀ v ∈ vs, -1000 ≤ v ∧ v ≤ 1000 := by
  have hr := tallyBlock_ok_range vs _ c h
  obtain ⟨c1, e1, e2⟩ := tallyBlock_hist vs [] _ hr hist_init
    (by simp only [List.length_nil]; omega)
  rw [h] at e1
  injection e1 with e1
  rw [List.nil_append, ← e1] at e2
  exact ⟨e2, hr⟩

theorem countsBounded_init : CountsBounded (List.replicate RANGE.toNat 0) 0 := by
  refine ⟨by rw [RANGE_toNat]; exact List.length_replicate _ _, ?_⟩
  intro i
  rw [getD_replicate_zero]
  exact ⟨le_rfl, le_rfl⟩

theorem countsBounded_bump (counts : List Int) (k v : Int) (hb : CountsBounded counts k)
    (h1 : -1000 ≤ v) (h2 : v ≤ 1000) (hk : k < 2147483647) :
    CountsBounded (bump counts v) (k + 1) := by
  refine ⟨by unfold bump; rw [List.length_set]; exact hb.1, ?_⟩
  intro i
  have hi := hb.2 i
  rw [getD_bump counts v hb.1 h1 h2 i]
  split
  · rw [wrap32_of_range (by omega) (by omega)]; omega
  · omega

theorem countsBounded_mono (counts : List Int) (k m : Int) (hb : CountsBounded counts k)
    (hkm : k ≤ m) : CountsBounded counts m :=
  ⟨hb.1, fun i => ⟨(hb.2 i).1, le_trans (hb.2 i).2 hkm⟩⟩

/-- Every increment executed on a block is safe, and a block tallied to the end leaves every
counter at most the number of records tallied so far. -/
theorem tallyBlockAccesses_safe (total : Int) (ht : total < 2147483648) (vs : List Int) :
    ∀ (counts : List Int) (k : Int), CountsBounded counts k → 0 ≤ k →
    k + vs.length ≤ total →
    (∀ a ∈ tallyBlockAccesses vs counts, SafeAccess a total)
    ∧ (∀ c, tallyBlock vs counts = .ok c → CountsBounded c (k + vs.length)) := by
  induction vs with
  | nil =>
    intro counts k hb _ _
    refine ⟨fun a ha => absurd ha (List.not_mem_nil a), ?_⟩
    intro c hc
    rw [tallyBlock] at hc
    injection hc with hc
    rw [← hc, List.length_nil, Nat.cast_zero, Int.add_zero]
    exact hb
  | cons v rest ih =>
    intro counts k hb hk hlen
    rw [List.length_cons] at hlen
    push_cast at hlen
    rw [tallyBlockAccesses, tallyBlock]
    by_cases hg : v < MIN_TEMP ∨ v > MAX_TEMP
    · rw [if_pos hg, if_pos hg]
      exact ⟨fun a ha => absurd ha (List.not_mem_nil a), fun c hc => by cases hc⟩
    · rw [if_neg hg, if_neg hg]
      unfold MIN_TEMP MAX_TEMP at hg
      have hstep := countsBounded_bump counts k v hb (by omega) (by omega) (by omega)
      obtain ⟨i1, i2⟩ := ih (bump counts v) (k + 1) hstep (by omega) (by omega)
      constructor
      · intro a ha
        rcases List.mem_cons.mp ha with e | hmem
        · have hv := hb.2 (v - MIN_TEMP).toNat
          rw [e]
          unfold SafeAccess MIN_TEMP
          dsimp only
          rw [wrap32_of_range (by omega) (by omega), hb.1]
          unfold MIN_TEMP at hv
          omega
        · exact i1 a hmem
      · intro c hc
        have := i2 c hc
        rw [List.length_cons]
        push_cast
        rw [show k + ((rest.length : Int) + 1) = k + 1 + rest.length by omega]
        exact this

/-- Every increment executed by the tally loop is safe, on any file, and a tally loop that
succeeds leaves every counter in `[0, total_records]`. -/
theorem tallyLoopAccesses_safe (f : File) (total : Int) (ht : total < 2147483648) :
    ∀ (fuel : Nat) (rr cur : Int) (counts : List Int),
    0 ≤ rr → rr ≤ total → CountsBounded counts rr →
    (∀ a ∈ tallyLoopAccesses f total fuel rr cur counts, SafeAccess a total)
    ∧ (∀ c, tallyLoop f total fuel rr cur counts = .ok c → CountsBounded c total) := by
  intro fuel
  induction fuel with
  | zero =>
    intro rr cur counts _ hle hb
    refine ⟨fun a ha => absurd ha (List.not_mem_nil a), ?_⟩
    intro c hc
    rw [tallyLoop] at hc
    split at hc
    · cases hc
    · injection hc with hc
      rw [← hc]
      exact countsBounded_mono counts rr total hb hle
  | succ fuel ih =>
    intro rr cur counts h0 hle hb
    by_cases hlt : rr < total
    · have hto : ∃ t : Int, (if total - rr < BUFFER_SIZE then total - rr else BUFFER_SIZE) = t
          ∧ 1 ≤ t ∧ t ≤ total - rr ∧ t ≤ 4096 := by
        refine ⟨_, rfl, ?_, ?_, ?_⟩ <;> unfold BUFFER_SIZE <;> split <;> omega
      obtain ⟨t, et, t1, t2, t3⟩ := hto
      have hsz : toSizeT (toSizeT t * 4) = 4 * t := by unfold toSizeT; omega
      rw [tallyLoopAccesses, tallyLoop, if_pos hlt, if_pos hlt]
      dsimp only
      rw [et, hsz]
      cases hp : pread f (4 * t).toNat cur with
      | none =>
        exact ⟨fun a ha => absurd ha (List.not_mem_nil a), fun c hc => by cases hc⟩
      | some buffer =>
        dsimp only
        by_cases hlen : (buffer.length : Int) ≠ 4 * t
        · rw [if_pos hlen, if_pos hlen]
          exact ⟨fun a ha => absurd ha (List.not_mem_nil a), fun c hc => by cases hc⟩
        · rw [if_neg hlen, if_neg hlen]
          have hbl : buffer.length = 4 * t.toNat := by omega
          have hwl : (decodeWords buffer).length = t.toNat :=
            (encodeWords_decodeWords t.toNat buffer hbl).2.1
          obtain ⟨b1, b2⟩ := tallyBlockAccesses_safe total ht (decodeWords buffer) counts rr hb h0
            (by rw [hwl]; omega)
          cases hblk : tallyBlock (decodeWords buffer) counts with
          | error e =>
            dsimp only
            rw [List.append_nil]
            exact ⟨b1, fun c hc => by cases hc⟩
          | ok counts1 =>
            dsimp only
            have hb1 := b2 counts1 hblk
            rw [hwl, show rr + ((t.toNat : Nat) : Int) = rr + t by omega] at hb1
            rw [wrap32_of_range (by omega) (by omega)]
            obtain ⟨l1, l2⟩ := ih (rr + t) (wrap64 (cur + buffer.length)) counts1 (by omega)
              (by omega) hb1
            refine ⟨?_, l2⟩
            intro a ha
            rcases List.mem_append.mp ha with h | h
            · exact b1 a h
            · exact l1 a h
    · have e : rr = total := by omega
      rw [tallyLoopAccesses, tallyLoop, if_neg hlt, if_neg hlt]
      refine ⟨fun a ha => absurd ha (List.not_mem_nil a), ?_⟩
      intro c hc
      injection hc with hc
      rw [← hc]
      exact countsBounded_mono counts rr total hb hle

theorem tallyBlockAccesses_append (xs ys : List Int) : ∀ counts : List Int,
    tallyBlockAccesses (xs ++ ys) counts
      = tallyBlockAccesses xs counts ++
          match tallyBlock xs counts with
          | .error _ => []
          | .ok c => tallyBlockAccesses ys c := by
  induction xs with
  | nil => intro counts; rfl
  | cons v vs ih =>
    intro counts
    rw [List.cons_append, tallyBlockAccesses, tallyBlockAccesses, tallyBlock]
    split
    · rfl
    · rw [ih, List.cons_append]

theorem tallyLoopAccesses_eq {f : File} {off n : Nat} {recs : List Int}
    (h : RegionAt f off n recs) (hn : n < 2147483648) :
    ∀ (fuel m : Nat) (counts : List Int), m ≤ n → n - m ≤ fuel →
    tallyLoopAccesses f n fuel m ((off + 4 * m : Nat) : Int) counts
      = tallyBlockAccesses (recs.drop m) counts := by
  intro fuel
  induction fuel with
  | zero =>
    intro m counts hm hf
    have e : m = n := by omega
    subst e
    rw [tallyLoopAccesses, List.drop_of_length_le (by rw [h.bytes.2.1]), tallyBlockAccesses]
  | succ fuel ih =>
    intro m counts hm hf
    by_cases hlt : m < n
    · obtain ⟨e1, e2, e3⟩ := block_size n m hlt
      obtain ⟨p1, p2, p3, p4⟩ := pread_block h m (min 4096 (n - m)) e3 (by omega)
      have hsplit : recs.drop m
          = (recs.drop m).take (min 4096 (n - m)) ++ recs.drop (m + min 4096 (n - m)) := by
        rw [← List.drop_drop, List.take_append_drop]
      have w1 : wrap32 ((m : Int) + ((min 4096 (n - m) : Nat) : Int))
          = ((m + min 4096 (n - m) : Nat) : Int) := by
        rw [wrap32_of_range (by omega) (by omega)]; push_cast; rfl
      have w2 := offset_step off m (min 4096 (n - m)) n f.length e3 (by omega) h.fit h.small
      rw [tallyLoopAccesses, if_pos (by omega)]
      simp only [e1, p1, p2, p3, ne_eq, not_true_eq_false, if_false]
      conv_rhs => rw [hsplit, tallyBlockAccesses_append]
      cases hb : tallyBlock ((recs.drop m).take (min 4096 (n - m))) counts with
      | error e => rfl
      | ok c1 =>
        dsimp only
        rw [w1, w2, ih _ c1 e3 (by omega)]
    · have e : m = n := by omega
      subst e
      rw [tallyLoopAccesses, if_neg (by omega), List.drop_of_length_le (by rw [h.bytes.2.1]),
        tallyBlockAccesses]

/-- The indices used on a block are those of its records up to the first one that fails the
range check. -/
theorem tallyBlockAccesses_index (vs : List Int) : ∀ counts : List Int,
    (tallyBlockAccesses vs counts).map HistAccess.index
      = (vs.takeWhile (fun v => decide (MIN_TEMP ≤ v ∧ v ≤ MAX_TEMP))).map
          (fun v => v - MIN_TEMP) := by
  induction vs with
  | nil => intro counts; rfl
  | cons v rest ih =>
    intro counts
    rw [tallyBlockAccesses, List.takeWhile_cons]
    by_cases hg : v < MIN_TEMP ∨ v > MAX_TEMP
    · have hd : decide (MIN_TEMP ≤ v ∧ v ≤ MAX_TEMP) = false := by
        rw [decide_eq_false_iff_not]; omega
      rw [if_pos hg, hd]
      rfl
    · have hd : decide (MIN_TEMP ≤ v ∧ v ≤ MAX_TEMP) = true := by
        rw [decide_eq_true_iff]; omega
      rw [if_neg hg, hd]
      unfold MIN_TEMP MAX_TEMP at hg
      have hw : wrap32 (v - MIN_TEMP) = v - MIN_TEMP := by
        unfold MIN_TEMP
        exact wrap32_of_range (by omega) (by omega)
      rw [List.map_cons, ih]
      simp only [hw, if_true, List.map_cons]

theorem sort_region_accesses_of_header (f : File) (rc rpr r : Int)
    (hdr : read_header f = some (rc, rpr)) (hne : ¬(r < 1 ∨ r > rc)) :
    sort_region_accesses f r
      = tallyLoopAccesses f rpr rpr.toNat 0 (region_offset rpr r)
          (List.replicate RANGE.toNat 0) := by
  unfold sort_region_accesses
  rw [hdr]
  dsimp only
  rw [if_neg hne]

theorem sort_region_accesses_index (f : File) (rc r : Int) (n : Nat)
    (hdr : read_header f = some (rc, (n : Int))) (hr1 : 1 ≤ r) (hr2 : r ≤ rc)
    (hfit : regionStart n r + 4 * n ≤ f.length) (hs : f.length ≤ OFF_MAX) :
    (sort_region_accesses f r).map HistAccess.index
      = ((regionRecords f n r).takeWhile (fun v => decide (MIN_TEMP ≤ v ∧ v ≤ MAX_TEMP))).map
          (fun v => v - MIN_TEMP) := by
  obtain ⟨hrc, hn⟩ := read_header_range f rc n hdr
  have hoff := region_offset_start n r (by omega) hr1 (by omega) (by omega)
  have hreg := region_of_file f n r hfit hs
  have heq := tallyLoopAccesses_eq hreg (by omega) n 0 (List.replicate RANGE.toNat 0)
    (Nat.zero_le _) (by omega)
  rw [Nat.mul_zero, Nat.add_zero, List.drop_zero, show ((0 : Nat) : Int) = 0 from rfl,
    ← hoff] at heq
  rw [sort_region_accesses_of_header f rc n r hdr (by omega), Int.toNat_ofNat, heq,
    tallyBlockAccesses_index]

/-- C19: on every file with a readable header `(rc, n)`, each execution of
`counts[temp - MIN_TEMP]++` by `sort_region` uses an index `temp - (-1000)` in `[0, 2000]`,
inside the 2001-entry histogram, and finds a counter in `[0, n - 1]`, so that the increment
does not leave the 32-bit range (`n < 2^31`); a tally pass that succeeds leaves a 2001-entry
histogram, read at the indices `0 .. 2000` by the rewrite pass, with every counter in `[0, n]`.
The indices used are exactly those of the region's records up to the first record that fails
the range check: on the region `[4, 1001, -5000]` the only access is at index `1004`. -/
theorem histogram_safety (f : File) (rc r : Int) (n : Nat)
    (hdr : read_header f = some (rc, (n : Int))) :
    (∀ a ∈ sort_region_accesses f r,
        0 ≤ a.index ∧ a.index ≤ 2000 ∧ a.size = 2001 ∧ a.index.toNat < a.size
        ∧ 0 ≤ a.value ∧ a.value + 1 ≤ (n : Int))
    ∧ (n : Int) < 2147483648
    ∧ (∀ counts : List Int,
        tallyLoop f n (n : Int).toNat 0 (region_offset n r) (List.replicate RANGE.toNat 0)
          = .ok counts →
        counts.length = 2001
        ∧ (∀ i ∈ List.range RANGE.toNat, i < counts.length)
        ∧ ∀ i : Nat, 0 ≤ counts.getD i 0 ∧ counts.getD i 0 ≤ (n : Int))
    ∧ (1 ≤ r → r ≤ rc → regionStart n r + 4 * n ≤ f.length → f.length ≤ OFF_MAX →
        (sort_region_accesses f r).map HistAccess.index
          = ((regionRecords f n r).takeWhile (fun v => decide (MIN_TEMP ≤ v ∧ v ≤ MAX_TEMP))).map
              (fun v => v - MIN_TEMP))
    ∧ (sort_region_accesses (mkFile 1 3 [4, 1001, -5000]) 1).map HistAccess.index = [1004] := by
  obtain ⟨hrc, hn⟩ := read_header_range f rc n hdr
  obtain ⟨s1, s2⟩ := tallyLoopAccesses_safe f n hn.2 (n : Int).toNat 0 (region_offset n r)
    (List.replicate RANGE.toNat 0) le_rfl (by omega) countsBounded_init
  refine ⟨?_, hn.2, ?_, sort_region_accesses_index f rc r n hdr,
    (sort_region_accesses_index (mkFile 1 3 [4, 1001, -5000]) 1 1 3 (by decide) (by decide)
      (by decide) (by decide) (by decide)).trans (by decide)⟩
  · intro a ha
    by_cases hne : r < 1 ∨ r > rc
    · unfold sort_region_accesses at ha
      rw [hdr] at ha
      dsimp only at ha
      rw [if_pos hne] at ha
      exact absurd ha (List.not_mem_nil a)
    · rw [sort_region_accesses_of_header f rc n r hdr hne] at ha
      exact s1 a ha
  · intro counts hc
    have hb := s2 counts hc
    refine ⟨hb.1, ?_, hb.2⟩
    intro i hi
    rw [RANGE_toNat] at hi
    rw [hb.1]
    exact List.mem_range.mp hi

/-- Witness for C19 on region 2 of the sample file, whose records `[1000, -1000, 0]` are
tallied at the indices `2000`, `0` and `1000`. -/
theorem histogram_safety_witness :
    read_header sampleFile = some (2, ((3 : Nat) : Int))
    ∧ (∀ a ∈ sort_region_accesses sampleFile 2,
        0 ≤ a.index ∧ a.index ≤ 2000 ∧ a.size = 2001 ∧ a.index.toNat < a.size
        ∧ 0 ≤ a.value ∧ a.value + 1 ≤ ((3 : Nat) : Int))
    ∧ (sort_region_accesses sampleFile 2).map HistAccess.index = [2000, 0, 1000] :=
  ⟨by decide, (histogram_safety sampleFile 2 2 3 (by decide)).1,
   ((histogram_safety sampleFile 2 2 3 (by decide)).2.2.2.1 (by decide) (by decide) (by decide)
      (by decide)).trans (by decide)⟩

/-! ## Running sum, ordered regions and empty regions in `stats.c` -/

theorem sum_bound (xs : List Int) (hi : Int32s xs) :
    -((xs.length : Int) * 2147483648) ≤ xs.sum ∧ xs.sum ≤ (xs.length : Int) * 2147483648 := by
  induction xs with
  | nil => simp
  | cons v rest ih =>
    have hv := hi v (List.mem_cons_self _ _)
    have := ih (fun w hw => hi w (List.mem_cons_of_mem _ hw))
    rw [List.sum_cons, List.length_cons]
    push_cast
    omega

theorem statsFold_sum (xs : List Int) (hi : Int32s xs) (hl : xs.length < 2147483648) :
    (statsFold 0 xs ⟨0, 0, 0⟩).sum = xs.sum := by
  by_cases hne : xs = []
  · rw [hne]; rfl
  · exact (statsFold_region xs hne hi hl).2.2

/-- C15: for a region of `n` records (`n` is at most `2^31 - 1`, every record a 32-bit signed
integer), the 64-bit accumulator of the streaming pass of `compute_stats` ends equal to the
exact sum of the records, and at every step the accumulator holds the exact sum of the records
read so far and adding the next record stays within the signed 64-bit range. -/
theorem running_sum_exact (f : File) (rc r : Int) (n : Nat)
    (hdr : read_header f = some (rc, (n : Int))) (hr1 : 1 ≤ r) (hr2 : r ≤ rc)
    (hfit : regionStart n r + 4 * n ≤ f.length) (hs : f.length ≤ OFF_MAX) :
    (∃ acc : Acc,
        statsLoop f n (n : Int).toNat 0 (region_offset n r) ⟨0, 0, 0⟩ = .ok acc
        ∧ acc.sum = (regionRecords f n r).sum)
    ∧ (∀ (k : Nat) (v : Int), (regionRecords f n r)[k]? = some v →
        (statsFold 0 ((regionRecords f n r).take k) ⟨0, 0, 0⟩).sum
            = ((regionRecords f n r).take k).sum
        ∧ -9223372036854775808 ≤ ((regionRecords f n r).take k).sum + v
        ∧ ((regionRecords f n r).take k).sum + v < 9223372036854775808
        ∧ wrap64 ((statsFold 0 ((regionRecords f n r).take k) ⟨0, 0, 0⟩).sum + v)
            = ((regionRecords f n r).take (k + 1)).sum) := by
  obtain ⟨hrc, hn⟩ := read_header_range f rc n hdr
  have hoff := region_offset_start n r (by omega) hr1 (by omega) (by omega)
  have hreg := region_of_file f n r hfit hs
  have hlen := hreg.bytes.2.1
  have hint := hreg.bytes.2.2
  constructor
  · have hloop := statsLoop_eq hreg (by omega) n 0 ⟨0, 0, 0⟩ (Nat.zero_le _) (by omega)
    rw [Nat.mul_zero, Nat.add_zero, List.drop_zero, show ((0 : Nat) : Int) = 0 from rfl,
      ← hoff] at hloop
    rw [Int.toNat_ofNat]
    exact ⟨_, hloop, statsFold_sum _ hint (by omega)⟩
  · intro k v hkv
    have hk : k < (regionRecords f n r).length := by
      by_contra hge
      rw [List.getElem?_eq_none (by omega)] at hkv
      cases hkv
    have htake : Int32s ((regionRecords f n r).take k) :=
      fun w hw => hint w (List.mem_of_mem_take hw)
    have htl : ((regionRecords f n r).take k).length = k := by
      rw [List.length_take]; omega
    have hsum := statsFold_sum _ htake (by omega)
    have hb := sum_bound _ htake
    rw [htl] at hb
    have hv := hint v (List.getElem?_mem hkv)
    have hnext : ((regionRecords f n r).take (k + 1)).sum
        = ((regionRecords f n r).take k).sum + v := by
      rw [List.take_succ, hkv, List.sum_append]
      simp
    refine ⟨hsum, by omega, by omega, ?_⟩
    rw [hsum, hnext]
    exact wrap64_of_range (by omega) (by omega)

/-- Witness for C15 on region 1 of the sample file. -/
theorem running_sum_exact_witness :
    read_header sampleFile = some (2, ((3 : Nat) : Int))
    ∧ ∃ acc : Acc,
        statsLoop sampleFile ((3 : Nat) : Int) ((3 : Nat) : Int).toNat 0
          (region_offset ((3 : Nat) : Int) 1) ⟨0, 0, 0⟩ = .ok acc
        ∧ acc.sum = (regionRecords sampleFile 3 1).sum :=
  ⟨by decide,
   (running_sum_exact sampleFile 2 1 3 (by decide) (by decide) (by decide) (by decide)
     (by decide)).1⟩

theorem tdiv_two_between (a b : Int) (hab : a ≤ b) :
    a ≤ Int.tdiv (a + b) 2 ∧ Int.tdiv (a + b) 2 ≤ b := by
  by_cases h : 0 ≤ a + b
  · rw [Int.tdiv_eq_ediv h (by omega)]
    omega
  · have hneg : Int.tdiv (a + b) 2 = -((-(a + b)) / 2) := by
      rw [← Int.tdiv_eq_ediv (by omega) (by omega), Int.neg_tdiv, Int.neg_neg]
    rw [hneg]
    omega

/-- C17: for a non-empty region in ascending order whose records lie in `[-1000, 1000]` (a
region as produced by `sort_region`), the record computed by `compute_stats` satisfies
`min ≤ median ≤ max`, with `min` the first and `max` the last record of the region; on the
even-count region `[-5, -4, -3, -2]` the median is `-3`, the average `-3.5` of the two middle
records truncated toward zero. -/
theorem stats_of_ascending_region (f : File) (rc r : Int) (n : Nat)
    (hdr : read_header f = some (rc, (n : Int))) (hr1 : 1 ≤ r) (hr2 : r ≤ rc) (hpos : 1 ≤ n)
    (hfit : regionStart n r + 4 * n ≤ f.length) (hs : f.length ≤ OFF_MAX)
    (hsorted : (regionRecords f n r).Sorted (fun a b => a ≤ b))
    (hrange : ∀ v ∈ regionRecords f n r, -1000 ≤ v ∧ v ≤ 1000) :
    (∃ st : region_stats, compute_stats f r = .ok st
      ∧ st.min ≤ st.median ∧ st.median ≤ st.max
      ∧ (regionRecords f n r)[0]? = some st.min
      ∧ (regionRecords f n r)[n - 1]? = some st.max)
    ∧ compute_stats (mkFile 1 4 [-5, -4, -3, -2]) 1 = .ok ⟨1, -3, (-14, 4), -2, -5⟩ := by
  refine ⟨?_, by decide⟩
  obtain ⟨st, e, _, hmin, hmax, _, hodd, heven⟩ :=
    compute_stats_ok f rc r n hdr hr1 hr2 hpos hfit hs
  have hlen := (region_of_file f n r hfit hs).bytes.2.1
  have hfirst := sorted_first _ hsorted _ hmin.1 hmin.2
  have hlast := sorted_last _ hsorted _ hmax.1 hmax.2
  rw [hlen] at hlast
  refine ⟨st, e, ?_, ?_, hfirst, hlast⟩
  · by_cases hpar : n % 2 = 1
    · exact hmin.2 _ (List.getElem?_mem (hodd hpar))
    · obtain ⟨a, b, ha, hb, hm⟩ := heven (by omega)
      have ra := hrange a (List.getElem?_mem ha)
      have rb := hrange b (List.getElem?_mem hb)
      have h1 := hmin.2 a (List.getElem?_mem ha)
      have h2 := hmin.2 b (List.getElem?_mem hb)
      rw [hm, wrap32_of_range (by omega) (by omega)]
      rcases le_total a b with hab | hba
      · have := tdiv_two_between a b hab
        omega
      · have := tdiv_two_between b a hba
        rw [Int.add_comm] at this
        omega
  · by_cases hpar : n % 2 = 1
    · exact hmax.2 _ (List.getElem?_mem (hodd hpar))
    · obtain ⟨a, b, ha, hb, hm⟩ := heven (by omega)
      have ra := hrange a (List.getElem?_mem ha)
      have rb := hrange b (List.getElem?_mem hb)
      have h1 := hmax.2 a (List.getElem?_mem ha)
      have h2 := hmax.2 b (List.getElem?_mem hb)
      rw [hm, wrap32_of_range (by omega) (by omega)]
      rcases le_total a b with hab | hba
      · have := tdiv_two_between a b hab
        omega
      · have := tdiv_two_between b a hba
        rw [Int.add_comm] at this
        omega

/-- Witness for C17 on a file whose region 2 is `[-1000, 0, 1000]`. -/
theorem stats_of_ascending_region_witness :
    read_header (mkFile 2 3 [7, -3, 5, -1000, 0, 1000]) = some (2, ((3 : Nat) : Int))
    ∧ (regionRecords (mkFile 2 3 [7, -3, 5, -1000, 0, 1000]) 3 2).Sorted (fun a b => a ≤ b)
    ∧ ∃ st : region_stats, compute_stats (mkFile 2 3 [7, -3, 5, -1000, 0, 1000]) 2 = .ok st
      ∧ st.min ≤ st.median ∧ st.median ≤ st.max
      ∧ (regionRecords (mkFile 2 3 [7, -3, 5, -1000, 0, 1000]) 3 2)[0]? = some st.min
      ∧ (regionRecords (mkFile 2 3 [7, -3, 5, -1000, 0, 1000]) 3 2)[3 - 1]? = some st.max :=
  ⟨by decide, by decide,
   (stats_of_ascending_region (mkFile 2 3 [7, -3, 5, -1000, 0, 1000]) 2 2 3 (by decide)
     (by decide) (by decide) (by decide) (by decide) (by decide) (by decide) (by decide)).1⟩

theorem read_header_fields (f : File) (a b : Int) (h : read_header f = some (a, b)) :
    readInt f 0 = some a ∧ readInt f 4 = some b := by
  unfold read_header at h
  split at h
  · cases h
  · rename_i x hx
    split at h
    · cases h
    · rename_i y hy
      injection h with h
      injection h with h1 h2
      rw [← h1, ← h2]
      exact ⟨hx, hy⟩

theorem readInt_at_end (f : File) (o : Nat) (h : f.length ≤ o) : readInt f (o : Int) = none := by
  unfold readInt pread
  rw [if_neg (by omega), Int.toNat_ofNat, List.drop_of_length_le h]
  rfl

theorem region_offset_empty (r : Int) (hr1 : 1 ≤ r) (hr2 : r < 2147483648) :
    region_offset 0 r = 8 := by
  have h := region_offset_eq 0 r le_rfl (by omega) hr1 hr2 (by omega)
  rw [h]
  omega

/-- C18: for a well-formed file with `records_per_region = 0` (its length is exactly `8`) and a
valid region id, `compute_stats` produces no record: the count `0` is even, the median step
addresses the records of index `-1` and `0` at byte offsets `4` and `8`, the read at offset `4`
returns the header word `0`, the read at offset `8` is short, and the operation fails with the
median read error. -/
theorem compute_stats_empty_region (f : File) (rc r : Int)
    (hdr : read_header f = some (rc, 0)) (hr1 : 1 ≤ r) (hr2 : r ≤ rc) (hlen : f.length = 8) :
    compute_stats f r = .error .medianRead
    ∧ Int.tmod 0 2 = 0
    ∧ wrap64 (toSizeT (toSizeT (region_offset 0 r)
        + toSizeT (toSizeT (wrap32 (Int.tdiv 0 2 - 1)) * 4))) = 4
    ∧ wrap64 (toSizeT (toSizeT (region_offset 0 r) + toSizeT (toSizeT (Int.tdiv 0 2) * 4))) = 8
    ∧ readInt f 4 = some 0 ∧ readInt f 8 = none := by
  obtain ⟨hrc, _⟩ := read_header_range f rc 0 hdr
  have hoff := region_offset_empty r hr1 (by omega)
  have h4 := (read_header_fields f rc 0 hdr).2
  have h8 : readInt f 8 = none := readInt_at_end f 8 (by omega)
  have o1 : wrap64 (toSizeT (toSizeT (region_offset 0 r)
      + toSizeT (toSizeT (wrap32 (Int.tdiv 0 2 - 1)) * 4))) = 4 := by
    rw [hoff]; decide
  have o2 : wrap64 (toSizeT (toSizeT (region_offset 0 r)
      + toSizeT (toSizeT (Int.tdiv 0 2) * 4))) = 8 := by
    rw [hoff]; decide
  have hmed : ∀ tot : Int, tot = 0 →
      median_step f (region_offset 0 r) tot = .error .medianRead := by
    intro tot ht
    unfold median_step
    rw [ht, if_pos (by decide), o1, o2, h4, h8]
  have hloop : ∀ tot : Int, tot = 0 → ∀ acc : Acc,
      statsLoop f tot tot.toNat 0 (region_offset tot r) acc = .ok acc := by
    intro tot ht acc
    have : tot.toNat = 0 := by omega
    rw [this, statsLoop, if_neg (by omega)]
  have hmain : ∀ tot : Int, tot = 0 → read_header f = some (rc, tot) →
      compute_stats f r = .error .medianRead := by
    intro tot ht hd
    unfold compute_stats
    rw [hd]
    dsimp only
    rw [if_neg (by omega), hloop tot ht]
    dsimp only
    rw [ht, hmed 0 rfl]
  exact ⟨hmain 0 rfl hdr, by decide, o1, o2, h4, h8⟩

/-- Witness for C18 on a three-region file with no records. -/
theorem compute_stats_empty_region_witness :
    read_header (mkFile 3 0 []) = some (3, 0) ∧ (mkFile 3 0 []).length = 8
    ∧ compute_stats (mkFile 3 0 []) 2 = .error .medianRead
    ∧ Int.tmod 0 2 = 0
    ∧ wrap64 (toSizeT (toSizeT (region_offset 0 2)
        + toSizeT (toSizeT (wrap32 (Int.tdiv 0 2 - 1)) * 4))) = 4
    ∧ wrap64 (toSizeT (toSizeT (region_offset 0 2) + toSizeT (toSizeT (Int.tdiv 0 2) * 4))) = 8
    ∧ readInt (mkFile 3 0 []) 4 = some 0 ∧ readInt (mkFile 3 0 []) 8 = none :=
  ⟨by decide, by decide,
   compute_stats_empty_region (mkFile 3 0 []) 3 2 (by decide) (by decide) (by decide)
     (by decide)⟩

/-! ## The statistics file name and the sort child -/

theorem digitChar_decimal (d : Nat) (h : d < 10) : Nat.digitChar d = Char.ofNat (48 + d) := by
  interval_cases d <;> rfl

theorem digitLoop_step (fuel n : Nat) :
    digitLoop (fuel + 1) (n : Int)
      = Nat.digitChar (n % 10) ::
          (if n / 10 = 0 then [] else digitLoop fuel ((n / 10 : Nat) : Int)) := by
  have hd : Int.tdiv (n : Int) 10 = ((n / 10 : Nat) : Int) := by
    rw [Int.tdiv_eq_ediv (by omega) (by omega)]; omega
  have hm : ((48 + Int.tmod (n : Int) 10) % 256).toNat = 48 + n % 10 := by
    rw [Int.tmod_eq_emod (by omega) (by omega)]; omega
  rw [digitLoop, hd, hm, digitChar_decimal _ (Nat.mod_lt _ (by decide))]
  by_cases h0 : n / 10 = 0
  · rw [if_pos h0, if_neg (by omega)]
  · rw [if_neg h0, if_pos (by omega)]

theorem toDigitsCore_digitLoop : ∀ (fuel n fc : Nat) (ds : List Char),
    n < 10 ^ (fuel + 1) → n < fc →
    Nat.toDigitsCore 10 fc n ds = (digitLoop (fuel + 1) (n : Int)).reverse ++ ds := by
  intro fuel
  induction fuel with
  | zero =>
    intro n fc ds hn hfc
    obtain ⟨fc1, rfl⟩ : ∃ k, fc = k + 1 := ⟨fc - 1, by omega⟩
    have h0 : n / 10 = 0 := by omega
    rw [digitLoop_step, if_pos h0, Nat.toDigitsCore]
    simp only [h0, if_true, List.reverse_cons, List.reverse_nil, List.nil_append,
      List.singleton_append]
  | succ fuel ih =>
    intro n fc ds hn hfc
    obtain ⟨fc1, rfl⟩ : ∃ k, fc = k + 1 := ⟨fc - 1, by omega⟩
    rw [digitLoop_step, Nat.toDigitsCore]
    by_cases h0 : n / 10 = 0
    · simp only [h0, if_true, List.reverse_cons, List.reverse_nil, List.nil_append,
        List.singleton_append]
    · have hlt : n / 10 < 10 ^ (fuel + 1) := by
        rw [Nat.div_lt_iff_lt_mul (by decide)]
        rw [pow_succ] at hn
        exact hn
      simp only [h0, if_false]
      rw [ih (n / 10) fc1 _ hlt (by omega), List.reverse_cons, List.append_assoc,
        List.singleton_append]

/-- C14: for every `int` region id `r ≥ 1`, the name of the statistics file built by the stats
tool is `"region-"`, then the decimal representation of `r`, then `"-stats.bin"`; for `r = 12`
it is `"region-12-stats.bin"`. -/
theorem stats_filename_decimal (r : Int) (hr1 : 1 ≤ r) (hr2 : r < 2147483648) :
    stats_filename r = statsFileNameSpec r.toNat
    ∧ stats_filename 12 = "region-12-stats.bin" := by
  refine ⟨?_, by decide⟩
  have hcast : r = ((r.toNat : Nat) : Int) := by omega
  have hdig := toDigitsCore_digitLoop 15 r.toNat (r.toNat + 1) []
    (by have : r.toNat < 2147483648 := by omega
        exact lt_trans this (by norm_num)) (by omega)
  rw [List.append_nil, ← hcast] at hdig
  unfold stats_filename statsFileNameSpec Nat.repr Nat.toDigits List.asString
  rw [hdig]
  rfl

/-- Witness for C14 at region id 12. -/
theorem stats_filename_decimal_witness :
    stats_filename 12 = statsFileNameSpec (12 : Int).toNat
    ∧ stats_filename 12 = "region-12-stats.bin" :=
  stats_filename_decimal 12 (by decide) (by decide)

/-- When `fork` fails or the sort child exits with a non-zero status, the stats tool stops
before reading the data file. -/
theorem stats_main_sort_failed (f : File) (r : Int) :
    stats_main .forkFailed f r = .error .fork
    ∧ ∀ status : Nat, status % 256 ≠ 0 → stats_main (.exited status) f r = .error .sortFailed := by
  refine ⟨rfl, ?_⟩
  intro status hst
  unfold stats_main
  dsimp only
  rw [if_pos ⟨rfl, hst⟩]

/-- C11 fails on the code: when the sort child is terminated by a signal (here signal 9) the
test `WIFEXITED(status) && WEXITSTATUS(status) != 0` is false, and the stats tool goes on to
read the data file, whose region `[5, -3, 0, 5, 2]` is still unsorted, and produces a record
(with median `0`, the record in the middle of the unsorted region). -/
theorem stats_main_after_signal :
    regionRecords exampleFile 5 1 = [5, -3, 0, 5, 2]
    ∧ stats_main (.signaled 9) exampleFile 1 = .ok ⟨1, 0, (9, 5), 5, -3⟩ := by
  decide

end RegionFile
